import Mathlib

/-!
# Find API demo: context extraction and custom highlighting

A shallow embedding of `content_script.js`:

* `collectTextSegments` (with `getFrames`): rebuilds, from serialized range
  offsets, a snippet of text around every match;
* `setCustomHighlighting`, `findbarTweakStyleHighlighting` and
  `clearCustomHighlighting`: the overlay renderer working on the global list
  `highlighterDivs`.

JavaScript strings are lists of UTF-16 code units; a code unit is carried by a
`Char`.  JavaScript integers are `Int`.  A thrown `TypeError` (reading a
property of `undefined`) is the result `none`.
-/

namespace FindDemo

/-! ## Strings -/

/-- A JavaScript string: the list of its code units. -/
abbrev JsString := List Char

/-- The code units matched by the regular expression class `\s`. -/
def isWhiteSpace (ch : Char) : Bool :=
  let n := ch.toNat
  n == 0x09 || n == 0x0A || n == 0x0B || n == 0x0C || n == 0x0D || n == 0x20 ||
  n == 0xA0 || n == 0x1680 || (0x2000 ≤ n && n ≤ 0x200A) ||
  n == 0x2028 || n == 0x2029 || n == 0x202F || n == 0x205F || n == 0x3000 || n == 0xFEFF

/-- The call `text.replace(/\s/g, " ")`: every single match of `\s` is replaced by a space. -/
def replaceWhiteSpace (text : JsString) : JsString :=
  text.map fun ch => if isWhiteSpace ch then ' ' else ch

/-- The call `text.slice(start, end)` of `String.prototype.slice` on integer arguments:
a negative argument counts from the end, both are clamped to `[0, length]`, and the
result is empty when the start is not before the end. -/
def jsSlice (text : JsString) (start stop : Int) : JsString :=
  let len : Int := text.length
  let from_ : Int := if start < 0 then max (len + start) 0 else min start len
  let to_ : Int := if stop < 0 then max (len + stop) 0 else min stop len
  (text.drop from_.toNat).take (to_ - from_).toNat

/-! ## Text nodes and match data -/

/-- The array `nodes` built by the tree walker: the `textContent` of every text node of
one document, in document order. -/
abbrev Nodes := List JsString

/-- The read `nodes[i].textContent`; `nodes[i]` is `undefined` outside `0 .. length - 1`,
and the property read then throws. -/
def nodeAt (nodes : Nodes) (i : Int) : Option JsString :=
  if i < 0 then none else nodes[i.toNat]?

/-- The object pushed into a window bucket: the node positions and offsets of one match. -/
structure Datum where
  startTextNodePos : Int
  startOffset : Int
  endTextNodePos : Int
  endOffset : Int
  deriving DecidableEq, Repr

/-- One entry of `rangeData`, as delivered by the find API. -/
structure RangeDatum where
  framePos : Int
  startTextNodePos : Int
  startOffset : Int
  endTextNodePos : Int
  endOffset : Int
  deriving DecidableEq, Repr

/-- The number of characters surrounding each end of the found text. -/
def contextLength : Int := 15

/-! ## `collectTextSegments`, one match -/

/-- The loop `for (let j = startTextNodePos; j < endTextNodePos + 1; j++) text += nodes[j].textContent`,
on the number of iterations still to run. -/
def concatLoop (nodes : Nodes) : Nat → Int → JsString → Option JsString
  | 0, _, text => some text
  | n + 1, j, text =>
    match nodeAt nodes j with
    | none => none
    | some t => concatLoop nodes n (j + 1) (text ++ t)

/-- The loop `while (contextStartOffset < 0)` that walks to the preceding nodes.
The state is `(newStartPos, contextStartOffset, text)`; the first argument bounds the
number of times the loop condition is evaluated (`none` when it is exhausted). -/
def backwardLoop (nodes : Nodes) : Nat → Int → Int → JsString → Option (Int × Int × JsString)
  | 0, _, _, _ => none
  | fuel + 1, newStartPos, contextStartOffset, text =>
    if contextStartOffset < 0 then
      let newStartPos := newStartPos - 1
      if newStartPos < 0 then
        some (newStartPos, contextStartOffset, text)
      else
        match nodeAt nodes newStartPos with
        | none => none
        | some prevText =>
          backwardLoop nodes fuel newStartPos (contextStartOffset + prevText.length) (prevText ++ text)
    else
      some (newStartPos, contextStartOffset, text)

/-- The loop `while (contextEndOffset < 0)` that walks to the following nodes.
The state is `(newEndPos, contextEndOffset, text)`; the first argument bounds the
number of times the loop condition is evaluated (`none` when it is exhausted). -/
def forwardLoop (nodes : Nodes) : Nat → Int → Int → JsString → Option (Int × Int × JsString)
  | 0, _, _, _ => none
  | fuel + 1, newEndPos, contextEndOffset, text =>
    if contextEndOffset < 0 then
      let newEndPos := newEndPos + 1
      if newEndPos = (nodes.length : Int) then
        some (newEndPos, contextEndOffset, text)
      else
        match nodeAt nodes newEndPos with
        | none => none
        | some nextText =>
          forwardLoop nodes fuel newEndPos (contextEndOffset + nextText.length) (text ++ nextText)
    else
      some (newEndPos, contextEndOffset, text)

/-- Lines 64-102 of `collectTextSegments`: the text of one match with its context, after
`text.slice` and before the white space is replaced.  Both `while` loops evaluate their
condition at most `nodes.length + 1` times, which is the bound passed to them. -/
def slicedText (nodes : Nodes) (context : Int) (datum : Datum) : Option JsString :=
  match concatLoop nodes (datum.endTextNodePos + 1 - datum.startTextNodePos).toNat
      datum.startTextNodePos [] with
  | none => none
  | some text =>
    match nodeAt nodes datum.endTextNodePos with
    | none => none
    | some endText =>
      let lengthOfEndNode : Int := endText.length
      let contextStartOffset := datum.startOffset - context
      let contextEndOffset := (lengthOfEndNode - datum.endOffset) - context
      match backwardLoop nodes (nodes.length + 1) datum.startTextNodePos contextStartOffset text with
      | none => none
      | some (_, contextStartOffset, text) =>
        match forwardLoop nodes (nodes.length + 1) datum.endTextNodePos contextEndOffset text with
        | none => none
        | some (_, contextEndOffset, text) =>
          let contextStartOffset := max 0 contextStartOffset
          some (jsSlice text contextStartOffset ((text.length : Int) - contextEndOffset))

/-- The body of `for (let datum of data)`: the snippet pushed onto `segments`. -/
def collectOne (nodes : Nodes) (context : Int) (datum : Datum) : Option JsString :=
  (slicedText nodes context datum).map replaceWhiteSpace

/-! ## Statement vocabulary for the extractor -/

/-- The full concatenated text of the nodes of a frame. -/
def fullText (nodes : Nodes) : JsString := nodes.flatten

/-- The absolute position, in `fullText`, of offset `off` of node `pos`. -/
def absPos (nodes : Nodes) (pos off : Int) : Int :=
  ((nodes.take pos.toNat).flatten.length : Int) + off

/-- The characters of `text` from position `a` up to position `b`. -/
def sliceFromTo (text : JsString) (a b : Int) : JsString :=
  (text.take b.toNat).drop a.toNat

/-- A match descriptor that is well formed for `nodes`. -/
def WellFormed (nodes : Nodes) (d : Datum) : Prop :=
  0 ≤ d.startTextNodePos ∧ d.startTextNodePos ≤ d.endTextNodePos ∧
  d.endTextNodePos < (nodes.length : Int) ∧
  0 ≤ d.startOffset ∧ d.startOffset ≤ ((nodes.getD d.startTextNodePos.toNat []).length : Int) ∧
  0 ≤ d.endOffset ∧ d.endOffset ≤ ((nodes.getD d.endTextNodePos.toNat []).length : Int) ∧
  absPos nodes d.startTextNodePos d.startOffset ≤ absPos nodes d.endTextNodePos d.endOffset

instance (nodes : Nodes) (d : Datum) : Decidable (WellFormed nodes d) := by
  unfold WellFormed; infer_instance

/-- The snippet the specification describes: the full text from `max(0, A - c)` to
`min(T, B + c)`, every white-space character replaced by a space. -/
def snippetSpec (nodes : Nodes) (c : Int) (d : Datum) : JsString :=
  replaceWhiteSpace
    (sliceFromTo (fullText nodes)
      (max 0 (absPos nodes d.startTextNodePos d.startOffset - c))
      (min ((fullText nodes).length : Int) (absPos nodes d.endTextNodePos d.endOffset + c)))


/-! ## Frames -/

/-- A window of the frame tree, as far as `content_script.js` looks at it:
`document` is `none` when `win.document` is falsy, and holds the text nodes the tree
walker enumerates otherwise; `frameElement` tells whether `win.frameElement` is truthy;
`frames` is `none` when `win.frames` is falsy, and an entry of it is `none` when
`win.frames[i]` is falsy. -/
inductive Win where
  | mk (document : Option Nodes) (frameElement : Bool) (frames : Option (List (Option Win)))

/-- The property `win.document`. -/
def Win.document : Win → Option Nodes
  | .mk document _ _ => document

/-- The property `win.frameElement`, as a truth value. -/
def Win.frameElement : Win → Bool
  | .mk _ frameElement _ => frameElement

/-- The property `win.frames`. -/
def Win.frames : Win → Option (List (Option Win))
  | .mk _ _ frames => frames

mutual
/-- The inner function `getframes(win, frameList)`; the list it pushes onto is returned. -/
def getframes : Win → List Win → List Win
  | .mk _ _ none, frameList => frameList
  | .mk _ _ (some frames), frameList => getframesLoop frames frameList
/-- The loop `for (var i = 0; win.frames && i < win.frames.length; i++)` on the frames
still to visit. -/
def getframesLoop : List (Option Win) → List Win → List Win
  | [], frameList => frameList
  | none :: rest, frameList => getframesLoop rest frameList
  | some frame :: rest, frameList =>
    if frame.document.isNone || !frame.frameElement then
      getframesLoop rest frameList
    else
      getframesLoop rest (getframes frame (frameList ++ [frame]))
end

/-- The function `getFrames(topWin)`. -/
def getFrames (topWin : Win) : List Win :=
  getframes topWin [topWin]

/-- A child frame is included when it has both a document and a frame element. -/
def Win.included (frame : Win) : Bool :=
  frame.document.isSome && frame.frameElement

mutual
/-- Depth-first pre-order of a window: the window, then its included frames, each
followed at once by its own included descendants. -/
def preOrder : Win → List Win
  | .mk document frameElement none => [.mk document frameElement none]
  | .mk document frameElement (some frames) =>
    .mk document frameElement (some frames) :: preOrderFrames frames
/-- Depth-first pre-order of a list of child frames; a frame that is not included is
left out with its whole subtree. -/
def preOrderFrames : List (Option Win) → List Win
  | [] => []
  | none :: rest => preOrderFrames rest
  | some frame :: rest =>
    if frame.included then preOrder frame ++ preOrderFrames rest else preOrderFrames rest
end

/-! ## `collectTextSegments` -/

/-- The sparse array `rangeDataWins`: the bucket stored under a key, if any. -/
abbrev Buckets := Int → Option (List Datum)

/-- The body of `for (let datum of rangeData)`: create the bucket of `framePos` when there
is none, then push the node positions and offsets onto it. -/
def bucketStep (rangeDataWins : Buckets) (datum : RangeDatum) : Buckets :=
  let rangeDataWins : Buckets :=
    if (rangeDataWins datum.framePos).isNone then
      Function.update rangeDataWins datum.framePos (some [])
    else rangeDataWins
  let rangeDataWin := (rangeDataWins datum.framePos).getD []
  Function.update rangeDataWins datum.framePos
    (some (rangeDataWin ++
      [⟨datum.startTextNodePos, datum.startOffset, datum.endTextNodePos, datum.endOffset⟩]))

/-- The first loop of `collectTextSegments`: range data put into window buckets. -/
def fillBuckets (rangeData : List RangeDatum) : Buckets :=
  rangeData.foldl bucketStep (fun _ => none)

/-- The loop `for (let datum of data)`, pushing one snippet per datum onto `segments`. -/
def dataLoop (nodes : Nodes) (context : Int) : List Datum → List JsString → Option (List JsString)
  | [], segments => some segments
  | datum :: rest, segments =>
    match collectOne nodes context datum with
    | none => none
    | some text => dataLoop nodes context rest (segments ++ [text])

/-- The loop `for (let i = 0; i < wins.length; i++)` on the windows still to visit. -/
def winsLoop (rangeDataWins : Buckets) (context : Int) :
    List Win → Nat → List JsString → Option (List JsString)
  | [], _, segments => some segments
  | win :: rest, i, segments =>
    match rangeDataWins (i : Int) with
    | none => winsLoop rangeDataWins context rest (i + 1) segments
    | some data =>
      match win.document with
      | none => winsLoop rangeDataWins context rest (i + 1) segments
      | some nodes =>
        match dataLoop nodes context data segments with
        | none => none
        | some segments => winsLoop rangeDataWins context rest (i + 1) segments

/-- The function `collectTextSegments(rangeData)`, run in the window `window`. -/
def collectTextSegments (window : Win) (rangeData : List RangeDatum) : Option (List JsString) :=
  let wins := getFrames window
  let context := contextLength
  winsLoop (fillBuckets rangeData) context wins 0 []

/-- The node positions and offsets of an entry of `rangeData`. -/
def RangeDatum.toDatum (d : RangeDatum) : Datum :=
  ⟨d.startTextNodePos, d.startOffset, d.endTextNodePos, d.endOffset⟩

/-- The snippets the specification asks for: frame order outer, match order inner; a
frame without a document contributes nothing. -/
def segmentsSpec (wins : List Win) (rangeData : List RangeDatum) : List JsString :=
  wins.enum.flatMap fun iw =>
    match iw.2.document with
    | none => []
    | some nodes =>
      (rangeData.filter fun d => d.framePos = (iw.1 : Int)).map fun d =>
        snippetSpec nodes contextLength d.toDatum

/-! ## The overlay renderer -/

/-- A rectangle of `rectData`. -/
structure Rect where
  left : Int
  top : Int
  right : Int
  bottom : Int
  deriving DecidableEq, Repr

/-- The object `rectsAndTexts` of one match. -/
structure RectsAndTexts where
  rectList : List Rect
  textList : List JsString
  deriving DecidableEq, Repr

/-- One entry of `rectData`: the geometry of one match. -/
structure RectDatum where
  rectsAndTexts : RectsAndTexts
  deriving DecidableEq, Repr

/-- A style value written as a number followed by `"px"`. -/
inductive CssLength where
  | px (n : Int)
  deriving DecidableEq, Repr

/-- A `div` element: its text content and the style properties the script assigns;
`none` is a property that was never assigned. -/
structure Element where
  textContent : JsString := []
  width : Option CssLength := none
  height : Option CssLength := none
  position : Option String := none
  fontSize : Option CssLength := none
  backgroundColor : Option String := none
  border : Option String := none
  left : Option CssLength := none
  top : Option CssLength := none
  borderRadius : Option String := none
  transition : Option String := none
  deriving DecidableEq, Repr

/-- The state the renderer works on.  An element is identified by its index in
`elements`, which holds every element created so far; `body` lists the children of
`document.body`; `highlighterDivs` is the global of that name. -/
structure Page where
  elements : List Element
  body : List Nat
  highlighterDivs : List Nat
  deriving DecidableEq, Repr

/-- Apply `f` to the element at index `div`. -/
def updateElement : List Element → Nat → (Element → Element) → List Element
  | [], _, _ => []
  | e :: es, 0, f => f e :: es
  | e :: es, n + 1, f => e :: updateElement es n f

/-- The call `document.createElement("div")`: a new element without a parent. -/
def createElement (page : Page) : Page × Nat :=
  ({ page with elements := page.elements ++ [{}] }, page.elements.length)

/-- An assignment to a property of `div` or of `div.style`. -/
def assign (page : Page) (div : Nat) (f : Element → Element) : Page :=
  { page with elements := updateElement page.elements div f }

/-- The call `div.remove()`: the element leaves its parent. -/
def remove (page : Page) (div : Nat) : Page :=
  { page with body := page.body.filter fun child => child ≠ div }

/-- The function `clearCustomHighlighting()`. -/
def clearCustomHighlighting (page : Page) : Page :=
  { page.highlighterDivs.foldl remove page with highlighterDivs := [] }

/-- The comparison `i == currentResult`, where `currentResult` is a number or `null`. -/
def looseEq (i : Nat) (currentResult : Option Int) : Bool :=
  match currentResult with
  | none => false
  | some r => decide ((i : Int) = r)

set_option linter.unusedVariables false in
/-- The body of the loop over `rectList` in `setCustomHighlighting`, for rectangle `j`
of group `i`; the second component is the list of children of `fragment`. -/
def rectStep (i : Nat) (currentResult : Option Int) (overlay : Bool) (textList : List JsString)
    (j : Nat) (rect : Rect) (state : Page × List Nat) : Page × List Nat :=
  let (page, fragment) := state
  let text := textList[j]?
  let width := rect.right - rect.left
  let height := rect.bottom - rect.top
  let (page, div) := createElement page
  let page := assign page div fun e => { e with width := some (.px width) }
  let page := assign page div fun e => { e with height := some (.px height) }
  let page := assign page div fun e => { e with position := some "absolute" }
  let offset : Int := 0
  let (divBG, border, offset) :=
    if looseEq i currentResult then ("#a7f432", "solid 1px blue", (1 : Int))
    else ("#fff700", "solid 1px red", (1 : Int))
  let (page, offset) :=
    if overlay then
      -- assigning `undefined` to `textContent` empties the element
      let page := assign page div fun e => { e with textContent := text.getD [] }
      let page := assign page div fun e => { e with fontSize := some (.px height) }
      let page := assign page div fun e => { e with backgroundColor := some divBG }
      (page, offset)
    else
      let offset : Int := 1
      let page := assign page div fun e => { e with border := some border }
      (page, offset)
  let page := assign page div fun e => { e with left := some (.px (rect.left - offset)) }
  let page := assign page div fun e => { e with top := some (.px (rect.top - offset)) }
  let fragment := fragment ++ [div]
  let page := { page with highlighterDivs := page.highlighterDivs ++ [div] }
  (page, fragment)

/-- The loop `for (let j = 0; j < rectList.length; j++)` on the rectangles still to draw. -/
def rectLoop (i : Nat) (currentResult : Option Int) (overlay : Bool) (textList : List JsString) :
    List Rect → Nat → Page × List Nat → Page × List Nat
  | [], _, state => state
  | rect :: rest, j, state =>
    rectLoop i currentResult overlay textList rest (j + 1)
      (rectStep i currentResult overlay textList j rect state)

/-- The loop `for (let i = 0; i < rectData.length; i++)` on the groups still to draw. -/
def groupLoop (currentResult : Option Int) (overlay : Bool) :
    List RectDatum → Nat → Page × List Nat → Page × List Nat
  | [], _, state => state
  | datum :: rest, i, state =>
    groupLoop currentResult overlay rest (i + 1)
      (rectLoop i currentResult overlay datum.rectsAndTexts.textList
        datum.rectsAndTexts.rectList 0 state)

/-- The function `setCustomHighlighting(rectData, currentResult, overlay)`.  The last
statement moves the children of `fragment`, all newly created, to the end of the body. -/
def setCustomHighlighting (page : Page) (rectData : List RectDatum) (currentResult : Option Int)
    (overlay : Bool) : Page :=
  let page := clearCustomHighlighting page
  let (page, fragment) := groupLoop currentResult overlay rectData 0 (page, [])
  { page with body := page.body ++ fragment }

/-- The read `rectData[currentResult]`, `undefined` for `null` and outside the array. -/
def rectDataAt (rectData : List RectDatum) (currentResult : Option Int) : Option RectDatum :=
  match currentResult with
  | none => none
  | some r => if r < 0 then none else rectData[r.toNat]?

/-- The function `findbarTweakStyleHighlighting(rectData, currentResult)`, up to its
return; the two timer callbacks run later and do not touch `highlighterDivs`.  The
second component is `false` when a `TypeError` is thrown, which happens right after
`clearCustomHighlighting()`. -/
def findbarTweakStyleHighlighting (page : Page) (rectData : List RectDatum)
    (currentResult : Option Int) : Page × Bool :=
  let page := clearCustomHighlighting page
  match rectDataAt rectData currentResult with
  | none => (page, false)
  | some datum =>
    match datum.rectsAndTexts.rectList[0]? with
    | none => (page, false)
    | some rect =>
      let (page, div) := createElement page
      let page := assign page div fun e => { e with width := some (.px 30) }
      let page := assign page div fun e => { e with height := some (.px 30) }
      let page := assign page div fun e => { e with position := some "absolute" }
      let page := assign page div fun e => { e with borderRadius := some "50px" }
      let page := assign page div fun e => { e with border := some "solid 3px #ef0fff" }
      let page := assign page div fun e => { e with left := some (.px rect.left) }
      let page := assign page div fun e => { e with top := some (.px rect.top) }
      let page := { page with body := page.body ++ [div] }
      let page := assign page div fun e => { e with transition := some "transform .2s ease-in" }
      let page := { page with highlighterDivs := page.highlighterDivs ++ [div] }
      (page, true)

/-- A render call: either of the two functions `handleMessage` dispatches to, with its
arguments. -/
inductive RenderCall where
  | custom (rectData : List RectDatum) (currentResult : Option Int) (overlay : Bool)
  | findbarTweak (rectData : List RectDatum) (currentResult : Option Int)

/-- The state a render call leaves, also when it throws. -/
def render (page : Page) : RenderCall → Page
  | .custom rectData currentResult overlay =>
    setCustomHighlighting page rectData currentResult overlay
  | .findbarTweak rectData currentResult =>
    (findbarTweakStyleHighlighting page rectData currentResult).1

/-- The states the content script can be in: the state after loading, where nothing is
tracked and every child of the body is an existing element, and every state reached
from it by calls of the three renderer functions. -/
inductive Reachable : Page → Prop where
  | init (elements : List Element) (body : List Nat) (h : ∀ id ∈ body, id < elements.length) :
      Reachable ⟨elements, body, []⟩
  | render (page : Page) (call : RenderCall) : Reachable page → Reachable (render page call)
  | clear (page : Page) : Reachable page → Reachable (clearCustomHighlighting page)

/-! ## Statement vocabulary for the renderer -/

/-- The ring drawn by `findbarTweakStyleHighlighting` at the corner of `rect`. -/
def targetDiv (rect : Rect) : Element :=
  { width := some (.px 30)
    height := some (.px 30)
    position := some "absolute"
    border := some "solid 3px #ef0fff"
    left := some (.px rect.left)
    top := some (.px rect.top)
    borderRadius := some "50px"
    transition := some "transform .2s ease-in" }

/-- The element drawn in the outline style. -/
def outlineDiv (rect : Rect) (highlighted : Bool) : Element :=
  { width := some (.px (rect.right - rect.left))
    height := some (.px (rect.bottom - rect.top))
    position := some "absolute"
    border := some (if highlighted then "solid 1px blue" else "solid 1px red")
    left := some (.px (rect.left - 1))
    top := some (.px (rect.top - 1)) }

/-- The element drawn in the overlay-text style. -/
def overlayDiv (rect : Rect) (text : JsString) (highlighted : Bool) : Element :=
  { textContent := text
    width := some (.px (rect.right - rect.left))
    height := some (.px (rect.bottom - rect.top))
    position := some "absolute"
    fontSize := some (.px (rect.bottom - rect.top))
    backgroundColor := some (if highlighted then "#a7f432" else "#fff700")
    left := some (.px (rect.left - 1))
    top := some (.px (rect.top - 1)) }

/-- The element of rectangle `j` of group `i`. -/
def styledDiv (currentResult : Option Int) (overlay : Bool) (i : Nat) (textList : List JsString)
    (j : Nat) (rect : Rect) : Element :=
  if overlay then overlayDiv rect (textList[j]?.getD []) (looseEq i currentResult)
  else outlineDiv rect (looseEq i currentResult)

/-- The elements of one group, rectangle by rectangle. -/
def groupDivs (currentResult : Option Int) (overlay : Bool) (i : Nat) (datum : RectDatum) :
    List Element :=
  datum.rectsAndTexts.rectList.enum.map fun jr =>
    styledDiv currentResult overlay i datum.rectsAndTexts.textList jr.1 jr.2

/-- The elements of all groups, group by group. -/
def allDivs (currentResult : Option Int) (overlay : Bool) (rectData : List RectDatum) :
    List Element :=
  rectData.enum.flatMap fun id => groupDivs currentResult overlay id.1 id.2

/-- The number of rectangles supplied, over all groups. -/
def totalRects (rectData : List RectDatum) : Nat :=
  (rectData.map fun datum => datum.rectsAndTexts.rectList.length).sum

/-- The number of rectangles a render call is supplied with. -/
def rectsSupplied : RenderCall → Nat
  | .custom rectData _ _ => totalRects rectData
  | .findbarTweak rectData _ => totalRects rectData

/-- The elements tracked in `highlighterDivs`, in order. -/
def trackedElements (page : Page) : List (Option Element) :=
  page.highlighterDivs.map fun div => page.elements[div]?

/-! ## Further vocabulary -/

/-- Length of the text of the first `k` nodes. -/
def lengthBefore (nodes : Nodes) (k : Nat) : Nat := (nodes.take k).flatten.length

/-- The snippets of one frame, as the specification lists them. -/
def frameSegments (rangeData : List RangeDatum) (iw : Nat × Win) : List JsString :=
  match iw.2.document with
  | none => []
  | some nodes =>
    (rangeData.filter fun d => d.framePos = (iw.1 : Int)).map fun d =>
      snippetSpec nodes contextLength d.toDatum

/-- Whether the frame a match names is among `wins` (numbered from `i`) and has a
document. -/
def hasFrame : List Win → Nat → RangeDatum → Bool
  | [], _, _ => false
  | w :: ws, i, d => (decide (d.framePos = (i : Int)) && w.document.isSome) || hasFrame ws (i + 1) d

/-- Whether every match is well formed for the nodes of the frame it names, for the
frames `wins` numbered from `i`. -/
def wellFormedFrom (rangeData : List RangeDatum) : List Win → Nat → Bool
  | [], _ => true
  | w :: ws, i =>
    (match w.document with
      | none => true
      | some nodes =>
        rangeData.all fun d => decide (d.framePos = (i : Int) → WellFormed nodes d.toDatum))
    && wellFormedFrom rangeData ws (i + 1)

/-- White-space normalisation as the specification words it: every maximal run of
white-space characters becomes one space.  The flag tells whether the previous
character belonged to a run. -/
def collapseRunsFrom : Bool → JsString → JsString
  | _, [] => []
  | inRun, ch :: rest =>
    if isWhiteSpace ch then
      if inRun then collapseRunsFrom true rest else ' ' :: collapseRunsFrom true rest
    else ch :: collapseRunsFrom false rest

/-- White-space normalisation as the specification words it. -/
def collapseRuns (text : JsString) : JsString := collapseRunsFrom false text

/-- Whether a string contains two adjacent spaces. -/
def hasAdjacentSpaces : JsString → Bool
  | a :: b :: rest => (a == ' ' && b == ' ') || hasAdjacentSpaces (b :: rest)
  | _ => false

/-- The position and size properties of an element. -/
def boxOf (e : Element) :
    Option String × Option CssLength × Option CssLength × Option CssLength × Option CssLength :=
  (e.position, e.width, e.height, e.left, e.top)

/-- The box the renderer gives the element of `rect`: absolutely positioned, of the
size of the rectangle, moved up and left by one pixel. -/
def boxSpec (rect : Rect) :
    Option String × Option CssLength × Option CssLength × Option CssLength × Option CssLength :=
  (some "absolute", some (.px (rect.right - rect.left)), some (.px (rect.bottom - rect.top)),
    some (.px (rect.left - 1)), some (.px (rect.top - 1)))

/-- Every tracked element is an existing element. -/
def TrackedExist (page : Page) : Prop :=
  ∀ div ∈ page.highlighterDivs, div < page.elements.length

/-! ## The context loops with the node reads recorded -/

/-- The loop `backwardLoop` with one more component of state: the indices at which
`nodes[newStartPos]` has been evaluated so far, the failing one included.  The result
has the recorded indices first. -/
def backwardLoopTraced (nodes : Nodes) :
    Nat → Int → Int → JsString → List Int → List Int × Option (Int × Int × JsString)
  | 0, _, _, _, reads => (reads, none)
  | fuel + 1, newStartPos, contextStartOffset, text, reads =>
    if contextStartOffset < 0 then
      let newStartPos := newStartPos - 1
      if newStartPos < 0 then
        (reads, some (newStartPos, contextStartOffset, text))
      else
        let reads := reads ++ [newStartPos]
        match nodeAt nodes newStartPos with
        | none => (reads, none)
        | some prevText =>
          backwardLoopTraced nodes fuel newStartPos (contextStartOffset + prevText.length)
            (prevText ++ text) reads
    else
      (reads, some (newStartPos, contextStartOffset, text))

/-- The loop `forwardLoop` with one more component of state: the indices at which
`nodes[newEndPos]` has been evaluated so far, the failing one included.  The result has
the recorded indices first. -/
def forwardLoopTraced (nodes : Nodes) :
    Nat → Int → Int → JsString → List Int → List Int × Option (Int × Int × JsString)
  | 0, _, _, _, reads => (reads, none)
  | fuel + 1, newEndPos, contextEndOffset, text, reads =>
    if contextEndOffset < 0 then
      let newEndPos := newEndPos + 1
      if newEndPos = (nodes.length : Int) then
        (reads, some (newEndPos, contextEndOffset, text))
      else
        let reads := reads ++ [newEndPos]
        match nodeAt nodes newEndPos with
        | none => (reads, none)
        | some nextText =>
          forwardLoopTraced nodes fuel newEndPos (contextEndOffset + nextText.length)
            (text ++ nextText) reads
    else
      (reads, some (newEndPos, contextEndOffset, text))

/-- A node sequence whose match node has only empty neighbours. -/
def emptyNeighbours : Nodes := [[], [], "ab".toList, [], []]

/-! ## Sample inputs -/

/-- A top window without a document, holding a frame with two text nodes, a frame
without a frame element, and a frame with one text node. -/
def sampleWindow : Win :=
  .mk none false (some
    [some (.mk (some ["ab cd".toList, "ef".toList]) true none),
     none,
     some (.mk (some ["skipped".toList]) false none),
     some (.mk (some ["the quick fox".toList]) true (some []))])

/-- Matches in frames 2, 0, 1, 1 of `sampleWindow`, and one in a frame that does not
exist. -/
def sampleRangeData : List RangeDatum :=
  [⟨2, 0, 4, 0, 9⟩, ⟨0, 0, 0, 0, 1⟩, ⟨1, 1, 0, 1, 1⟩, ⟨1, 0, 3, 1, 1⟩, ⟨7, 0, 0, 0, 0⟩]

/-- Matches in frames 2, 1, 1 of `sampleWindow`, each of which has a document. -/
def sampleValidData : List RangeDatum :=
  [⟨2, 0, 4, 0, 9⟩, ⟨1, 1, 0, 1, 1⟩, ⟨1, 0, 3, 1, 1⟩]

/-- A page with two elements in the body and nothing tracked. -/
def samplePage : Page := ⟨[{}, {}], [0, 1], []⟩

/-- Two rectangle groups of one rectangle each. -/
def sampleRectData : List RectDatum :=
  [⟨⟨[⟨10, 20, 30, 45⟩], ["ab".toList]⟩⟩, ⟨⟨[⟨5, 5, 6, 6⟩], ["x".toList]⟩⟩]

/-- One rectangle group whose match wraps over two rectangles. -/
def wrappedGroup : List RectDatum :=
  [⟨⟨[⟨10, 20, 30, 45⟩, ⟨0, 45, 12, 70⟩], ["ab".toList, "cd".toList]⟩⟩]

/-! ## Lemmas on the extractor -/

theorem nodeAt_natCast (nodes : Nodes) (k : Nat) : nodeAt nodes (k : Int) = nodes[k]? := by
  simp [nodeAt]

theorem nodeAt_of_lt (nodes : Nodes) (k : Nat) (h : k < nodes.length) :
    nodeAt nodes (k : Int) = some (nodes.getD k []) := by
  rw [nodeAt_natCast]
  simp [List.getD, List.getElem?_eq_getElem h]

theorem take_succ_flatten (nodes : Nodes) (k : Nat) (h : k < nodes.length) :
    (nodes.take (k + 1)).flatten = (nodes.take k).flatten ++ nodes.getD k [] := by
  rw [List.take_succ, List.flatten_append]
  simp [List.getD, List.getElem?_eq_getElem h]

theorem drop_flatten_cons (nodes : Nodes) (k : Nat) (h : k < nodes.length) :
    (nodes.drop k).flatten = nodes.getD k [] ++ (nodes.drop (k + 1)).flatten := by
  rw [List.drop_eq_getElem_cons h, List.flatten_cons]
  simp [List.getD, List.getElem?_eq_getElem h]

theorem lengthBefore_succ (nodes : Nodes) (k : Nat) (h : k < nodes.length) :
    lengthBefore nodes (k + 1) = lengthBefore nodes k + (nodes.getD k []).length := by
  simp [lengthBefore, take_succ_flatten nodes k h]

theorem lengthBefore_mono (nodes : Nodes) (j : Nat) :
    ∀ k, j ≤ k → k ≤ nodes.length → lengthBefore nodes j ≤ lengthBefore nodes k := by
  intro k hjk
  induction k, hjk using Nat.le_induction with
  | base => intro _; exact le_rfl
  | succ k _ ih =>
    intro hk
    have := lengthBefore_succ nodes k (by omega)
    have := ih (by omega)
    omega

theorem concatLoop_eq (nodes : Nodes) :
    ∀ (n k : Nat) (text : JsString), k + n ≤ nodes.length →
      concatLoop nodes n (k : Int) text = some (text ++ ((nodes.drop k).take n).flatten) := by
  intro n
  induction n with
  | zero => intro k text _; simp [concatLoop]
  | succ n ih =>
    intro k text h
    have hk : k < nodes.length := by omega
    have hstep := ih (k + 1) (text ++ nodes.getD k []) (by omega)
    simp only [concatLoop, nodeAt_of_lt nodes k hk]
    have hcast : ((k : Int) + 1) = ((k + 1 : Nat) : Int) := by push_cast; rfl
    rw [hcast, hstep, List.drop_eq_getElem_cons hk, List.take_succ_cons, List.flatten_cons]
    simp [List.getD, List.getElem?_eq_getElem hk]

theorem backwardLoop_spec (nodes : Nodes) :
    ∀ (fuel k : Nat) (cso : Int) (text : JsString), k ≤ nodes.length → k < fuel →
      ∃ (Y0 Y : JsString) (p : Int),
        (nodes.take k).flatten = Y0 ++ Y ∧
        backwardLoop nodes fuel (k : Int) cso text = some (p, cso + (Y.length : Int), Y ++ text) ∧
        (0 ≤ cso + (Y.length : Int) ∨ Y0 = []) := by
  intro fuel
  induction fuel with
  | zero => intro k _ _ _ h; omega
  | succ fuel ih =>
    intro k cso text hk hf
    by_cases hc : cso < 0
    · cases k with
      | zero =>
        refine ⟨[], [], -1, by simp, ?_, Or.inr rfl⟩
        simp [backwardLoop, hc]
      | succ k =>
        have hk' : k < nodes.length := by omega
        obtain ⟨Y0, Y, p, hsplit, hrun, hdone⟩ :=
          ih k (cso + ((nodes.getD k []).length : Int)) (nodes.getD k [] ++ text) (by omega) (by omega)
        refine ⟨Y0, Y ++ nodes.getD k [], p, ?_, ?_, ?_⟩
        · rw [take_succ_flatten nodes k hk', hsplit, List.append_assoc]
        · have hcast : (((k + 1 : Nat) : Int) - 1) = (k : Int) := by push_cast; ring
          have hnn : ¬ ((k : Int) < 0) := by omega
          simp only [backwardLoop, hc, if_true, hcast, hnn, if_false, nodeAt_of_lt nodes k hk']
          rw [hrun]
          simp only [List.length_append, List.append_assoc, Nat.cast_add]
          congr 3
          ring
        · rcases hdone with h | h
          · left; simp only [List.length_append, Nat.cast_add]; omega
          · right; exact h
    · refine ⟨(nodes.take k).flatten, [], (k : Int), by simp, ?_, Or.inl (by simpa using hc)⟩
      simp [backwardLoop, hc]

theorem forwardLoop_spec (nodes : Nodes) :
    ∀ (fuel k : Nat) (ceo : Int) (text : JsString), k < nodes.length → nodes.length - k ≤ fuel →
      ∃ (Z Z0 : JsString) (p : Int),
        (nodes.drop (k + 1)).flatten = Z ++ Z0 ∧
        forwardLoop nodes fuel (k : Int) ceo text = some (p, ceo + (Z.length : Int), text ++ Z) ∧
        (0 ≤ ceo + (Z.length : Int) ∨ Z0 = []) := by
  intro fuel
  induction fuel with
  | zero => intro k _ _ h1 h2; omega
  | succ fuel ih =>
    intro k ceo text hk hf
    by_cases hc : ceo < 0
    · by_cases hlast : k + 1 = nodes.length
      · refine ⟨[], [], (k : Int) + 1, ?_, ?_, Or.inr rfl⟩
        · rw [hlast]; simp
        · have : ((k : Int) + 1 = (nodes.length : Int)) := by exact_mod_cast hlast
          simp [forwardLoop, hc, this]
      · have hk' : k + 1 < nodes.length := by omega
        obtain ⟨Z, Z0, p, hsplit, hrun, hdone⟩ :=
          ih (k + 1) (ceo + ((nodes.getD (k + 1) []).length : Int)) (text ++ nodes.getD (k + 1) [])
            hk' (by omega)
        refine ⟨nodes.getD (k + 1) [] ++ Z, Z0, p, ?_, ?_, ?_⟩
        · rw [drop_flatten_cons nodes (k + 1) hk', hsplit, List.append_assoc]
        · have hne : ¬ ((k : Int) + 1 = (nodes.length : Int)) := by
            intro h; apply hlast; exact_mod_cast h
          have hcast : ((k : Int) + 1) = ((k + 1 : Nat) : Int) := by push_cast; rfl
          simp only [forwardLoop, hc, if_true, hne, if_false]
          rw [hcast, nodeAt_of_lt nodes (k + 1) hk']
          simp only []
          rw [hrun]
          simp only [List.length_append, List.append_assoc, Nat.cast_add, add_assoc]
        · rcases hdone with h | h
          · left; simp only [List.length_append, Nat.cast_add]; omega
          · right; exact h
    · refine ⟨[], (nodes.drop (k + 1)).flatten, (k : Int), by simp, ?_, Or.inl (by simpa using hc)⟩
      simp [forwardLoop, hc]

theorem jsSlice_eq_sliceFromTo (pre t post : JsString) (a b : Int) (ha : 0 ≤ a) (hb : 0 ≤ b) :
    jsSlice t a b =
      sliceFromTo (pre ++ t ++ post) ((pre.length : Int) + a)
        ((pre.length : Int) + min b (t.length : Int)) := by
  obtain ⟨a', rfl⟩ := Int.eq_ofNat_of_zero_le ha
  obtain ⟨b', rfl⟩ := Int.eq_ofNat_of_zero_le hb
  have hna : ¬ ((a' : Int) < 0) := by omega
  have hnb : ¬ ((b' : Int) < 0) := by omega
  have e1 : ((pre.length : Int) + (a' : Int)).toNat = pre.length + a' := by omega
  have e2 : ((pre.length : Int) + min (b' : Int) (t.length : Int)).toNat
      = pre.length + min b' t.length := by omega
  have e3 : (min (a' : Int) (t.length : Int)).toNat = min a' t.length := by omega
  have e4 : (min (b' : Int) (t.length : Int) - min (a' : Int) (t.length : Int)).toNat
      = min b' t.length - min a' t.length := by omega
  simp only [jsSlice, sliceFromTo, hna, hnb, if_false, e1, e2, e3, e4]
  rw [List.append_assoc, List.take_append, List.drop_append, List.take_append_of_le_length
    (Nat.min_le_right _ _), List.drop_take]
  by_cases h : a' ≤ t.length
  · rw [Nat.min_eq_left h]
  · have h1 : min a' t.length = t.length := Nat.min_eq_right (by omega)
    have h2 : min b' t.length - t.length = 0 := by omega
    have h3 : min b' t.length - a' = 0 := by omega
    rw [h1, h2, h3, List.take_zero, List.take_zero]

theorem getD_length_le_flatten (nodes : Nodes) (s e : Nat) (hse : s ≤ e) (he : e < nodes.length) :
    lengthBefore nodes s + ((nodes.drop s).take (e + 1 - s)).flatten.length
      = lengthBefore nodes e + (nodes.getD e []).length := by
  have h1 : nodes.take (e + 1) = nodes.take s ++ (nodes.drop s).take (e + 1 - s) := by
    rw [← List.take_append_drop s (nodes.take (e + 1)), List.take_take, List.drop_take,
      Nat.min_eq_left (by omega)]
  have h2 := lengthBefore_succ nodes e he
  unfold lengthBefore at h2 ⊢
  rw [h1, List.flatten_append, List.length_append] at h2
  exact h2

theorem fullText_split (nodes : Nodes) (s e : Nat) (hse : s ≤ e) :
    fullText nodes = (nodes.take s).flatten ++ ((nodes.drop s).take (e + 1 - s)).flatten
      ++ (nodes.drop (e + 1)).flatten := by
  have h1 : nodes.drop s = (nodes.drop s).take (e + 1 - s) ++ nodes.drop (e + 1) := by
    conv_lhs => rw [← List.take_append_drop (e + 1 - s) (nodes.drop s)]
    rw [List.drop_drop]
    congr 2
    omega
  unfold fullText
  conv_lhs => rw [← List.take_append_drop s nodes, h1]
  simp [List.flatten_append, List.append_assoc]

/-- The sliced text of a well-formed match is the slice of the full text that the
specification describes. -/
theorem slicedText_eq (nodes : Nodes) (c : Int) (d : Datum) (hc : 0 ≤ c)
    (hwf : WellFormed nodes d) :
    slicedText nodes c d = some
      (sliceFromTo (fullText nodes)
        (max 0 (absPos nodes d.startTextNodePos d.startOffset - c))
        (min ((fullText nodes).length : Int) (absPos nodes d.endTextNodePos d.endOffset + c))) := by
  obtain ⟨s', so, e', eo⟩ := d
  obtain ⟨hs0, hse, hel, hso0, hsol, heo0, heol, hAB⟩ := hwf
  simp only at hs0 hse hel hso0 hsol heo0 heol hAB
  obtain ⟨s, rfl⟩ := Int.eq_ofNat_of_zero_le hs0
  obtain ⟨e, rfl⟩ := Int.eq_ofNat_of_zero_le (le_trans hs0 hse)
  have hse' : s ≤ e := by exact_mod_cast hse
  have hel' : e < nodes.length := by exact_mod_cast hel
  simp only [Int.toNat_ofNat] at hsol heol
  -- the three loops
  have hcat := concatLoop_eq nodes (e + 1 - s) s [] (by omega)
  have hn : ((e : Int) + 1 - (s : Int)).toNat = e + 1 - s := by omega
  obtain ⟨Y0, Y, p, hY, hback, hYd⟩ :=
    backwardLoop_spec nodes (nodes.length + 1) s (so - c)
      ([] ++ ((nodes.drop s).take (e + 1 - s)).flatten) (by omega) (by omega)
  obtain ⟨Z, Z0, q, hZ, hfwd, hZd⟩ :=
    forwardLoop_spec nodes (nodes.length + 1) e (((nodes.getD e []).length : Int) - eo - c)
      (Y ++ ([] ++ ((nodes.drop s).take (e + 1 - s)).flatten)) hel' (by omega)
  simp only [slicedText, hn, hcat, nodeAt_of_lt nodes e hel', hback, hfwd]
  -- lengths
  have hlen := getD_length_le_flatten nodes s e hse' hel'
  have hmono := lengthBefore_mono nodes s e hse' (by omega)
  have hYlen : lengthBefore nodes s = Y0.length + Y.length := by
    unfold lengthBefore; rw [hY, List.length_append]
  have hfull : fullText nodes
      = Y0 ++ (Y ++ ([] ++ ((nodes.drop s).take (e + 1 - s)).flatten) ++ Z) ++ Z0 := by
    rw [fullText_split nodes s e hse', hY, hZ]
    simp [List.append_assoc]
  have hT : (fullText nodes).length = Y0.length + Y.length +
      ((nodes.drop s).take (e + 1 - s)).flatten.length + Z.length + Z0.length := by
    rw [hfull]; simp [List.length_append]; omega
  have hZ0 : Z0 = [] → Z0.length = 0 := by intro h; rw [h]; rfl
  have hY0 : Y0 = [] → Y0.length = 0 := by intro h; rw [h]; rfl
  have hA : absPos nodes (s : Int) so = ((lengthBefore nodes s : Nat) : Int) + so := by
    simp [absPos, lengthBefore]
  have hB : absPos nodes (e : Int) eo = ((lengthBefore nodes e : Nat) : Int) + eo := by
    simp [absPos, lengthBefore]
  set M := ((nodes.drop s).take (e + 1 - s)).flatten with hM
  set t := Y ++ ([] ++ M) ++ Z with ht
  have htlen : t.length = Y.length + M.length + Z.length := by
    rw [ht]; simp [List.length_append]; omega
  rw [jsSlice_eq_sliceFromTo Y0 t Z0 _ _ (le_max_left _ _) (by rw [htlen]; push_cast; omega), ← hfull]
  congr 2
  · rw [hA]
    rcases hYd with h | h
    · omega
    · have := hY0 h; omega
  · rw [hB, hT, htlen]
    rcases hZd with h | h
    · push_cast; omega
    · have := hZ0 h; push_cast; omega

/-- The snippet of a well-formed match. -/
theorem collectOne_eq (nodes : Nodes) (c : Int) (d : Datum) (hc : 0 ≤ c)
    (hwf : WellFormed nodes d) :
    collectOne nodes c d = some (snippetSpec nodes c d) := by
  simp [collectOne, snippetSpec, slicedText_eq nodes c d hc hwf]

/-! ## Lemmas on `getFrames` -/

mutual
theorem getframes_eq : ∀ (win : Win) (frameList : List Win),
    getframes win frameList = frameList ++ (preOrder win).tail
  | .mk _ _ none, frameList => by simp [getframes, preOrder]
  | .mk _ _ (some frames), frameList => by
    simp [getframes, preOrder, getframesLoop_eq frames frameList]
theorem getframesLoop_eq : ∀ (frames : List (Option Win)) (frameList : List Win),
    getframesLoop frames frameList = frameList ++ preOrderFrames frames
  | [], frameList => by simp [getframesLoop, preOrderFrames]
  | none :: rest, frameList => by
    simp [getframesLoop, preOrderFrames, getframesLoop_eq rest frameList]
  | some frame :: rest, frameList => by
    have hhead : preOrder frame = frame :: (preOrder frame).tail := by
      cases frame with
      | mk document frameElement frames => cases frames <;> simp [preOrder]
    by_cases h : frame.included = true
    · have h' : (frame.document.isNone || !frame.frameElement) = false := by
        simp only [Win.included, Bool.and_eq_true] at h
        cases hd : frame.document <;> simp_all
      rw [getframesLoop, preOrderFrames, if_pos h, h']
      simp only [Bool.false_eq_true, if_false]
      rw [getframesLoop_eq rest, getframes_eq frame]
      conv_rhs => rw [hhead]
      simp [List.append_assoc]
    · have h' : (frame.document.isNone || !frame.frameElement) = true := by
        simp only [Win.included, Bool.and_eq_true, not_and] at h
        cases hd : frame.document <;> simp_all
      rw [getframesLoop, preOrderFrames, if_neg h, h']
      simp only [if_true]
      rw [getframesLoop_eq rest]
end

theorem preOrder_cons (win : Win) : preOrder win = win :: (preOrder win).tail := by
  cases win with
  | mk document frameElement frames => cases frames <;> simp [preOrder]

theorem getFrames_eq_preOrder (topWin : Win) : getFrames topWin = preOrder topWin := by
  rw [getFrames, getframes_eq]
  conv_rhs => rw [preOrder_cons]
  rfl

/-! ## Lemmas on `collectTextSegments` -/

theorem bucketStep_apply (m : Buckets) (d : RangeDatum) (k : Int) :
    bucketStep m d k =
      if d.framePos = k then some ((m k).getD [] ++ [d.toDatum]) else m k := by
  unfold bucketStep RangeDatum.toDatum
  by_cases hk : d.framePos = k
  · subst hk
    cases hm : m d.framePos <;> simp [hm]
  · have hk' : k ≠ d.framePos := fun h => hk h.symm
    cases hm : m d.framePos <;> simp [hm, hk, Function.update_noteq hk']

theorem foldl_bucketStep_apply (rangeData : List RangeDatum) (k : Int) :
    ∀ m : Buckets, (rangeData.foldl bucketStep m) k =
      if (rangeData.filter fun d => d.framePos = k) = [] then m k
      else some ((m k).getD [] ++
        (rangeData.filter fun d => d.framePos = k).map RangeDatum.toDatum) := by
  induction rangeData with
  | nil => intro m; simp
  | cons d rest ih =>
    intro m
    rw [List.foldl_cons, ih, bucketStep_apply]
    by_cases hk : d.framePos = k
    · simp only [hk, if_true, List.filter_cons, decide_True, Option.getD_some]
      by_cases hr : (rest.filter fun d => d.framePos = k) = []
      · simp [hr]
      · simp [hr]
    · simp [hk, List.filter_cons]

theorem fillBuckets_apply (rangeData : List RangeDatum) (k : Int) :
    fillBuckets rangeData k =
      if (rangeData.filter fun d => d.framePos = k) = [] then none
      else some ((rangeData.filter fun d => d.framePos = k).map RangeDatum.toDatum) := by
  unfold fillBuckets
  rw [foldl_bucketStep_apply]
  simp

theorem dataLoop_eq (nodes : Nodes) (context : Int) (f : Datum → JsString) :
    ∀ (data : List Datum) (segments : List JsString),
      (∀ d ∈ data, collectOne nodes context d = some (f d)) →
      dataLoop nodes context data segments = some (segments ++ data.map f) := by
  intro data
  induction data with
  | nil => intro segments _; simp [dataLoop]
  | cons d rest ih =>
    intro segments h
    rw [dataLoop, h d (List.mem_cons_self _ _)]
    simp only []
    rw [ih _ (fun d' hd' => h d' (List.mem_cons_of_mem _ hd'))]
    simp

theorem segmentsSpec_eq (wins : List Win) (rangeData : List RangeDatum) :
    segmentsSpec wins rangeData = (wins.enumFrom 0).flatMap (frameSegments rangeData) := rfl

theorem winsLoop_eq (rangeData : List RangeDatum) :
    ∀ (wins : List Win) (i : Nat) (segments : List JsString),
      (∀ (k : Nat) (w : Win) (nodes : Nodes), wins[k]? = some w → w.document = some nodes →
        ∀ d ∈ rangeData, d.framePos = ((i + k : Nat) : Int) → WellFormed nodes d.toDatum) →
      winsLoop (fillBuckets rangeData) contextLength wins i segments
        = some (segments ++ (wins.enumFrom i).flatMap (frameSegments rangeData)) := by
  intro wins
  induction wins with
  | nil => intro i segments _; simp [winsLoop]
  | cons win rest ih =>
    intro i segments h
    have hrest := fun segs => ih (i + 1) segs (fun k w nodes hk hw d hd hfp =>
      h (k + 1) w nodes (by simpa using hk) hw d hd (by rw [hfp]; congr 1; omega))
    rw [winsLoop, fillBuckets_apply, List.enumFrom_cons, List.flatMap_cons]
    by_cases hb : (rangeData.filter fun d => d.framePos = (i : Int)) = []
    · rw [if_pos hb]
      simp only []
      rw [hrest]
      have : frameSegments rangeData (i, win) = [] := by
        unfold frameSegments
        cases win.document <;> simp [hb]
      rw [this]
      simp
    · rw [if_neg hb]
      simp only []
      cases hdoc : win.document with
      | none =>
        simp only []
        rw [hrest]
        have : frameSegments rangeData (i, win) = [] := by
          unfold frameSegments; simp [hdoc]
        rw [this]
        simp
      | some nodes =>
        simp only []
        have hall : ∀ d ∈ (rangeData.filter fun d => d.framePos = (i : Int)).map RangeDatum.toDatum,
            collectOne nodes contextLength d = some (snippetSpec nodes contextLength d) := by
          intro d hd
          obtain ⟨d0, hd0, rfl⟩ := List.mem_map.mp hd
          have hmem := List.mem_filter.mp hd0
          exact collectOne_eq nodes contextLength d0.toDatum (by decide)
            (h 0 win nodes (by simp) hdoc d0 hmem.1 (by simpa using hmem.2))
        rw [dataLoop_eq nodes contextLength (snippetSpec nodes contextLength) _ segments hall]
        simp only []
        rw [hrest]
        have : frameSegments rangeData (i, win)
            = ((rangeData.filter fun d => d.framePos = (i : Int)).map RangeDatum.toDatum).map
                (snippetSpec nodes contextLength) := by
          unfold frameSegments; simp [hdoc, List.map_map, Function.comp_def]
        rw [this]
        simp [List.append_assoc]

theorem hasFrame_le (d : RangeDatum) :
    ∀ (wins : List Win) (i : Nat), hasFrame wins i d = true → (i : Int) ≤ d.framePos := by
  intro wins
  induction wins with
  | nil => intro i h; simp [hasFrame] at h
  | cons w ws ih =>
    intro i h
    simp only [hasFrame, Bool.or_eq_true, Bool.and_eq_true, decide_eq_true_eq] at h
    rcases h with h | h
    · omega
    · have := ih (i + 1) h
      push_cast at this
      omega

theorem hasFrame_of_getElem (d : RangeDatum) :
    ∀ (wins : List Win) (i k : Nat) (w : Win), wins[k]? = some w →
      d.framePos = ((i + k : Nat) : Int) → w.document.isSome = true → hasFrame wins i d = true := by
  intro wins
  induction wins with
  | nil => intro i k w h; simp at h
  | cons w0 ws ih =>
    intro i k w hk hfp hdoc
    cases k with
    | zero =>
      simp only [List.getElem?_cons_zero, Option.some.injEq] at hk
      subst hk
      simp [hasFrame, hfp, hdoc]
    | succ k =>
      simp only [List.getElem?_cons_succ] at hk
      have := ih (i + 1) k w hk (by rw [hfp]; congr 1; omega) hdoc
      simp [hasFrame, this]

theorem length_filter_or {α : Type} (p q : α → Bool) (l : List α)
    (hpq : ∀ a, p a = true → q a = true → False) :
    (l.filter fun a => p a || q a).length = (l.filter p).length + (l.filter q).length := by
  induction l with
  | nil => simp
  | cons a rest ih =>
    cases hp : p a <;> cases hq : q a
    · simp [List.filter_cons, hp, hq, ih]
    · simp [List.filter_cons, hp, hq, ih]; omega
    · simp [List.filter_cons, hp, hq, ih]; omega
    · exact (hpq a hp hq).elim

theorem length_frameSegments (rangeData : List RangeDatum) (i : Nat) (w : Win) :
    (frameSegments rangeData (i, w)).length
      = (rangeData.filter fun d => decide (d.framePos = (i : Int)) && w.document.isSome).length := by
  unfold frameSegments
  cases hdoc : w.document <;> simp

theorem length_flatMap_frameSegments (rangeData : List RangeDatum) :
    ∀ (wins : List Win) (i : Nat),
      ((wins.enumFrom i).flatMap (frameSegments rangeData)).length
        = (rangeData.filter fun d => hasFrame wins i d).length := by
  intro wins
  induction wins with
  | nil => intro i; simp [hasFrame]
  | cons w ws ih =>
    intro i
    rw [List.enumFrom_cons, List.flatMap_cons, List.length_append, ih, length_frameSegments]
    have := length_filter_or (fun d : RangeDatum => decide (d.framePos = (i : Int)) && w.document.isSome)
      (fun d => hasFrame ws (i + 1) d) rangeData (by
        intro d h1 h2
        simp only [Bool.and_eq_true, decide_eq_true_eq] at h1
        have := hasFrame_le d ws (i + 1) h2
        push_cast at this
        omega)
    rw [← this]
    rfl

theorem length_segmentsSpec (wins : List Win) (rangeData : List RangeDatum)
    (hall : ∀ d ∈ rangeData, ∃ (i : Nat) (w : Win),
      wins[i]? = some w ∧ d.framePos = (i : Int) ∧ w.document.isSome = true) :
    (segmentsSpec wins rangeData).length = rangeData.length := by
  rw [segmentsSpec_eq, length_flatMap_frameSegments]
  congr 1
  rw [List.filter_eq_self]
  intro d hd
  obtain ⟨i, w, hi, hfp, hdoc⟩ := hall d hd
  exact hasFrame_of_getElem d wins 0 i w hi (by simpa using hfp) hdoc

/-! ## Lemmas on the renderer -/

theorem updateElement_last (l : List Element) (x : Element) (f : Element → Element) :
    updateElement (l ++ [x]) l.length f = l ++ [f x] := by
  induction l with
  | nil => rfl
  | cons a l ih => simp [updateElement, ih]

theorem rectStep_eq (i : Nat) (currentResult : Option Int) (overlay : Bool)
    (textList : List JsString) (j : Nat) (rect : Rect) (page : Page) (fragment : List Nat) :
    rectStep i currentResult overlay textList j rect (page, fragment) =
      ({ elements := page.elements ++ [styledDiv currentResult overlay i textList j rect]
         body := page.body
         highlighterDivs := page.highlighterDivs ++ [page.elements.length] },
       fragment ++ [page.elements.length]) := by
  cases overlay <;> cases h : looseEq i currentResult <;>
    simp [rectStep, createElement, assign, updateElement_last, styledDiv, overlayDiv,
      outlineDiv, h]

theorem rectLoop_eq (i : Nat) (currentResult : Option Int) (overlay : Bool)
    (textList : List JsString) :
    ∀ (rects : List Rect) (j : Nat) (page : Page) (fragment : List Nat),
      rectLoop i currentResult overlay textList rects j (page, fragment) =
        ({ elements := page.elements ++
             (rects.enumFrom j).map fun jr => styledDiv currentResult overlay i textList jr.1 jr.2
           body := page.body
           highlighterDivs := page.highlighterDivs ++ List.range' page.elements.length rects.length },
         fragment ++ List.range' page.elements.length rects.length) := by
  intro rects
  induction rects with
  | nil => intro j page fragment; simp [rectLoop]
  | cons rect rest ih =>
    intro j page fragment
    rw [rectLoop, rectStep_eq, ih]
    simp [List.enumFrom_cons, List.range'_succ, List.append_assoc]

theorem length_groupDivs (currentResult : Option Int) (overlay : Bool) (i : Nat) (datum : RectDatum) :
    (groupDivs currentResult overlay i datum).length = datum.rectsAndTexts.rectList.length := by
  simp [groupDivs, List.enum]

theorem groupLoop_eq (currentResult : Option Int) (overlay : Bool) :
    ∀ (rectData : List RectDatum) (i : Nat) (page : Page) (fragment : List Nat),
      groupLoop currentResult overlay rectData i (page, fragment) =
        ({ elements := page.elements ++
             (rectData.enumFrom i).flatMap fun id => groupDivs currentResult overlay id.1 id.2
           body := page.body
           highlighterDivs := page.highlighterDivs ++
             List.range' page.elements.length (totalRects rectData) },
         fragment ++ List.range' page.elements.length (totalRects rectData)) := by
  intro rectData
  induction rectData with
  | nil => intro i page fragment; simp [groupLoop, totalRects]
  | cons datum rest ih =>
    intro i page fragment
    rw [groupLoop, rectLoop_eq, ih]
    have hr : ∀ (a b n : Nat), List.range' n (a + b) = List.range' n a ++ List.range' (n + a) b := by
      intro a b n
      rw [List.range'_append_1, Nat.add_comm]
    have ht : totalRects (datum :: rest)
        = datum.rectsAndTexts.rectList.length + totalRects rest := by
      simp [totalRects]
    simp only [List.enumFrom_cons, List.flatMap_cons, ht, hr, List.length_append, List.length_map,
      List.enumFrom_length, List.append_assoc]
    rfl

theorem foldl_remove_eq (divs : List Nat) :
    ∀ page : Page, divs.foldl remove page =
      { elements := page.elements
        body := page.body.filter fun child => child ∉ divs
        highlighterDivs := page.highlighterDivs } := by
  induction divs with
  | nil => intro page; simp
  | cons d rest ih =>
    intro page
    rw [List.foldl_cons, ih]
    simp only [remove, List.filter_filter, List.mem_cons, not_or]
    congr 1
    apply List.filter_congr
    intro x _
    simp [Bool.and_comm]

theorem clearCustomHighlighting_eq (page : Page) :
    clearCustomHighlighting page =
      { elements := page.elements
        body := page.body.filter fun child => child ∉ page.highlighterDivs
        highlighterDivs := [] } := by
  simp [clearCustomHighlighting, foldl_remove_eq]

theorem setCustomHighlighting_eq (page : Page) (rectData : List RectDatum)
    (currentResult : Option Int) (overlay : Bool) :
    setCustomHighlighting page rectData currentResult overlay =
      { elements := page.elements ++ allDivs currentResult overlay rectData
        body := (page.body.filter fun child => child ∉ page.highlighterDivs) ++
          List.range' page.elements.length (totalRects rectData)
        highlighterDivs := List.range' page.elements.length (totalRects rectData) } := by
  simp [setCustomHighlighting, clearCustomHighlighting_eq, groupLoop_eq, allDivs, List.enum]

theorem findbarTweak_eq_of_rect (page : Page) (rectData : List RectDatum)
    (currentResult : Option Int) (datum : RectDatum) (rect : Rect)
    (hd : rectDataAt rectData currentResult = some datum)
    (hr : datum.rectsAndTexts.rectList[0]? = some rect) :
    findbarTweakStyleHighlighting page rectData currentResult =
      ({ elements := page.elements ++ [targetDiv rect]
         body := (page.body.filter fun child => child ∉ page.highlighterDivs) ++
           [page.elements.length]
         highlighterDivs := [page.elements.length] }, true) := by
  simp [findbarTweakStyleHighlighting, hd, hr, clearCustomHighlighting_eq, createElement, assign,
    updateElement_last, targetDiv]

theorem findbarTweak_cases (page : Page) (rectData : List RectDatum) (currentResult : Option Int) :
    (findbarTweakStyleHighlighting page rectData currentResult
        = (clearCustomHighlighting page, false)) ∨
    ∃ rect, findbarTweakStyleHighlighting page rectData currentResult =
      ({ elements := page.elements ++ [targetDiv rect]
         body := (page.body.filter fun child => child ∉ page.highlighterDivs) ++
           [page.elements.length]
         highlighterDivs := [page.elements.length] }, true) := by
  cases hd : rectDataAt rectData currentResult with
  | none => left; simp [findbarTweakStyleHighlighting, hd]
  | some datum =>
    cases hr : datum.rectsAndTexts.rectList[0]? with
    | none => left; simp [findbarTweakStyleHighlighting, hd, hr]
    | some rect => right; exact ⟨rect, findbarTweak_eq_of_rect page rectData currentResult datum rect hd hr⟩

theorem length_allDivs (currentResult : Option Int) (overlay : Bool) :
    ∀ (rectData : List RectDatum) (i : Nat),
      ((rectData.enumFrom i).flatMap fun id => groupDivs currentResult overlay id.1 id.2).length
        = totalRects rectData := by
  intro rectData
  induction rectData with
  | nil => intro i; simp [totalRects]
  | cons datum rest ih =>
    intro i
    rw [List.enumFrom_cons, List.flatMap_cons, List.length_append, ih, length_groupDivs]
    simp [totalRects]

theorem map_getElem?_range' (l a : List Element) :
    (List.range' l.length a.length).map (fun div => (l ++ a)[div]?) = a.map some := by
  apply List.ext_getElem
  · simp
  · intro n h1 h2
    simp only [List.length_map, List.length_range'] at h1
    simp [List.getElem_range', List.getElem?_append_right, List.getElem?_eq_getElem h1]

theorem trackedElements_setCustomHighlighting (page : Page) (rectData : List RectDatum)
    (currentResult : Option Int) (overlay : Bool) :
    trackedElements (setCustomHighlighting page rectData currentResult overlay)
      = (allDivs currentResult overlay rectData).map some := by
  rw [setCustomHighlighting_eq]
  unfold trackedElements
  simp only []
  have hlen : totalRects rectData = (allDivs currentResult overlay rectData).length := by
    rw [allDivs, List.enum, length_allDivs]
  rw [hlen, map_getElem?_range']

theorem trackedExist_of_reachable (page : Page) (h : Reachable page) : TrackedExist page := by
  induction h with
  | init elements body _ => intro div hdiv; simp at hdiv
  | render page call _ _ =>
    intro div hdiv
    cases call with
    | custom rectData currentResult overlay =>
      simp only [render] at hdiv ⊢
      rw [setCustomHighlighting_eq] at hdiv ⊢
      simp only [List.mem_range'_1] at hdiv
      simp only [List.length_append, allDivs, List.enum, length_allDivs]
      omega
    | findbarTweak rectData currentResult =>
      simp only [render] at hdiv ⊢
      rcases findbarTweak_cases page rectData currentResult with h | ⟨rect, h⟩
      · rw [h, clearCustomHighlighting_eq] at hdiv
        simp at hdiv
      · rw [h] at hdiv ⊢
        simp only [List.mem_singleton] at hdiv
        simp only [List.length_append, List.length_singleton]
        omega
  | clear page _ _ =>
    intro div hdiv
    rw [clearCustomHighlighting_eq] at hdiv
    simp at hdiv

/-! ## Further lemmas -/

theorem wellFormedFrom_spec (rangeData : List RangeDatum) :
    ∀ (wins : List Win) (i : Nat), wellFormedFrom rangeData wins i = true →
      ∀ (k : Nat) (w : Win) (nodes : Nodes), wins[k]? = some w → w.document = some nodes →
        ∀ d ∈ rangeData, d.framePos = ((i + k : Nat) : Int) → WellFormed nodes d.toDatum := by
  intro wins
  induction wins with
  | nil => intro i _ k w nodes hk; simp at hk
  | cons w0 ws ih =>
    intro i h k w nodes hk hdoc d hd hfp
    simp only [wellFormedFrom, Bool.and_eq_true] at h
    cases k with
    | zero =>
      simp only [List.getElem?_cons_zero, Option.some.injEq] at hk
      subst hk
      have h1 := h.1
      rw [hdoc] at h1
      simp only [List.all_eq_true, decide_eq_true_eq] at h1
      exact h1 d hd (by simpa using hfp)
    | succ k =>
      simp only [List.getElem?_cons_succ] at hk
      exact ih (i + 1) h.2 k w nodes hk hdoc d hd (by rw [hfp]; congr 1; omega)

theorem exists_of_hasFrame (d : RangeDatum) :
    ∀ (wins : List Win) (i : Nat), hasFrame wins i d = true →
      ∃ (k : Nat) (w : Win), wins[k]? = some w ∧ d.framePos = ((i + k : Nat) : Int) ∧
        w.document.isSome = true := by
  intro wins
  induction wins with
  | nil => intro i h; simp [hasFrame] at h
  | cons w0 ws ih =>
    intro i h
    simp only [hasFrame, Bool.or_eq_true, Bool.and_eq_true, decide_eq_true_eq] at h
    rcases h with h | h
    · exact ⟨0, w0, by simp, by simpa using h.1, h.2⟩
    · obtain ⟨k, w, hk, hfp, hdoc⟩ := ih (i + 1) h
      exact ⟨k + 1, w, by simpa using hk, by rw [hfp]; congr 1; omega, hdoc⟩

theorem lengthBefore_length (nodes : Nodes) :
    lengthBefore nodes nodes.length = (fullText nodes).length := by
  simp [lengthBefore, fullText]

theorem length_sliceFromTo (text : JsString) (a b : Int) (ha : 0 ≤ a) (hab : a ≤ b)
    (hb : b ≤ (text.length : Int)) :
    ((sliceFromTo text a b).length : Int) = b - a := by
  simp only [sliceFromTo, List.length_drop, List.length_take]
  omega

theorem length_replaceWhiteSpace (text : JsString) :
    (replaceWhiteSpace text).length = text.length := by
  simp [replaceWhiteSpace]

/-- Bounds on the absolute positions of a well-formed match. -/
theorem absPos_bounds (nodes : Nodes) (d : Datum) (hwf : WellFormed nodes d) :
    0 ≤ absPos nodes d.startTextNodePos d.startOffset ∧
    absPos nodes d.startTextNodePos d.startOffset ≤ absPos nodes d.endTextNodePos d.endOffset ∧
    absPos nodes d.endTextNodePos d.endOffset ≤ ((fullText nodes).length : Int) := by
  obtain ⟨s', so, e', eo⟩ := d
  obtain ⟨hs0, hse, hel, hso0, hsol, heo0, heol, hAB⟩ := hwf
  simp only at hs0 hse hel hso0 hsol heo0 heol hAB ⊢
  obtain ⟨e, rfl⟩ := Int.eq_ofNat_of_zero_le (le_trans hs0 hse)
  have hel' : e < nodes.length := by exact_mod_cast hel
  simp only [Int.toNat_ofNat] at heol
  have h1 := lengthBefore_succ nodes e hel'
  have h2 := lengthBefore_mono nodes (e + 1) nodes.length (by omega) le_rfl
  have h3 := lengthBefore_length nodes
  have hB : absPos nodes (e : Int) eo = ((lengthBefore nodes e : Nat) : Int) + eo := by
    simp [absPos, lengthBefore]
  refine ⟨?_, hAB, ?_⟩
  · unfold absPos; omega
  · rw [hB]; omega

theorem length_snippetSpec (nodes : Nodes) (c : Int) (d : Datum) (hc : 0 ≤ c)
    (hwf : WellFormed nodes d) :
    ((snippetSpec nodes c d).length : Int) =
      min ((fullText nodes).length : Int) (absPos nodes d.endTextNodePos d.endOffset + c)
        - max 0 (absPos nodes d.startTextNodePos d.startOffset - c) := by
  obtain ⟨hA0, hAB, hBT⟩ := absPos_bounds nodes d hwf
  rw [snippetSpec, length_replaceWhiteSpace, length_sliceFromTo _ _ _ (le_max_left _ _)
    (by omega) (min_le_left _ _)]

/-- A match inside one node that has enough context on both sides within the node:
the sliced text is cut from that node alone. -/
theorem slicedText_single (nodes : Nodes) (c : Int) (pos so eo : Int) (node : JsString)
    (hnode : nodeAt nodes pos = some node)
    (hstart : c ≤ so) (hend : c ≤ (node.length : Int) - eo) :
    slicedText nodes c ⟨pos, so, pos, eo⟩ = some (jsSlice node (so - c) (eo + c)) := by
  have hn : (pos + 1 - pos).toNat = 1 := by omega
  have h1 : ¬ (so - c < 0) := by omega
  have h2 : ¬ ((node.length : Int) - eo - c < 0) := by omega
  have h3 : max 0 (so - c) = so - c := max_eq_right (by omega)
  have h4 : (node.length : Int) - ((node.length : Int) - eo - c) = eo + c := by ring
  simp [slicedText, hn, concatLoop, hnode, backwardLoop, forwardLoop, h1, h2, h3, h4]

theorem jsSlice_eq_sliceFromTo_self (t : JsString) (a b : Int) (ha : 0 ≤ a) (hb : 0 ≤ b)
    (hbl : b ≤ (t.length : Int)) : jsSlice t a b = sliceFromTo t a b := by
  have := jsSlice_eq_sliceFromTo [] t [] a b ha hb
  simpa [min_eq_left hbl] using this

theorem sliceFromTo_substring (t : JsString) (a b : Int) : sliceFromTo t a b <:+: t :=
  List.IsInfix.trans (List.drop_suffix _ _).isInfix (List.take_prefix _ _).isInfix

theorem map_boxOf_groupDivs (currentResult : Option Int) (overlay : Bool) (i : Nat)
    (textList : List JsString) :
    ∀ (rects : List Rect) (j : Nat),
      ((rects.enumFrom j).map fun jr =>
        boxOf (styledDiv currentResult overlay i textList jr.1 jr.2)) = rects.map boxSpec := by
  intro rects
  induction rects with
  | nil => intro j; rfl
  | cons rect rest ih =>
    intro j
    rw [List.enumFrom_cons, List.map_cons, List.map_cons, ih]
    cases overlay <;> simp [styledDiv, boxOf, boxSpec, overlayDiv, outlineDiv]

theorem map_boxOf_allDivs (currentResult : Option Int) (overlay : Bool) :
    ∀ (rectData : List RectDatum) (i : Nat),
      ((rectData.enumFrom i).flatMap fun id => groupDivs currentResult overlay id.1 id.2).map boxOf
        = (rectData.flatMap fun datum => datum.rectsAndTexts.rectList).map boxSpec := by
  intro rectData
  induction rectData with
  | nil => intro i; rfl
  | cons datum rest ih =>
    intro i
    rw [List.enumFrom_cons, List.flatMap_cons, List.flatMap_cons, List.map_append, List.map_append,
      ih]
    congr 1
    simp only [groupDivs, List.enum, List.map_map]
    exact map_boxOf_groupDivs currentResult overlay i datum.rectsAndTexts.textList
      datum.rectsAndTexts.rectList 0

theorem length_le_totalRects (rectData : List RectDatum) (datum : RectDatum)
    (h : datum ∈ rectData) : datum.rectsAndTexts.rectList.length ≤ totalRects rectData := by
  induction rectData with
  | nil => simp at h
  | cons a rest ih =>
    simp only [totalRects, List.map_cons, List.sum_cons]
    rcases List.mem_cons.mp h with h | h
    · subst h; omega
    · have := ih h
      simp only [totalRects] at this
      omega

theorem rectDataAt_mem (rectData : List RectDatum) (currentResult : Option Int)
    (datum : RectDatum) (h : rectDataAt rectData currentResult = some datum) :
    datum ∈ rectData := by
  cases currentResult with
  | none => simp [rectDataAt] at h
  | some r =>
    simp only [rectDataAt] at h
    split at h
    · simp at h
    · exact List.getElem?_mem h

/-! ## The context extractor: claims -/

/-- C1: for every node sequence, every context length `c >= 0` and every well-formed
match descriptor, the snippet `collectTextSegments` produces for the match is the full
concatenated node text sliced from `max(0, A - c)` to `min(T, B + c)`, with every
white-space character then replaced by a space, where `A` and `B` are the absolute
positions of the match start and end and `T` is the total length. -/
theorem collectOne_clamped_slice (nodes : Nodes) (c : Int) (d : Datum) (hc : 0 ≤ c)
    (hwf : WellFormed nodes d) :
    collectOne nodes c d = some
      (replaceWhiteSpace
        (sliceFromTo (fullText nodes)
          (max 0 (absPos nodes d.startTextNodePos d.startOffset - c))
          (min ((fullText nodes).length : Int)
            (absPos nodes d.endTextNodePos d.endOffset + c)))) :=
  collectOne_eq nodes c d hc hwf

/-- C1, at a match that needs both neighbouring nodes and is clamped at the start of
the text. -/
theorem collectOne_clamped_slice_witness :
    WellFormed ["Hello world ".toList, "the\tquick fox".toList, " jumped today".toList] ⟨1, 2, 1, 9⟩ ∧
    collectOne ["Hello world ".toList, "the\tquick fox".toList, " jumped today".toList]
        contextLength ⟨1, 2, 1, 9⟩
      = some "Hello world the quick fox jumped tod".toList :=
  ⟨by decide,
   (collectOne_clamped_slice
      ["Hello world ".toList, "the\tquick fox".toList, " jumped today".toList]
      contextLength ⟨1, 2, 1, 9⟩ (by decide) (by decide)).trans (by decide)⟩

/-- C2: for matches that are well formed for the frame they name, `collectTextSegments`
returns the snippets frame by frame in the order of `getFrames`, and within a frame in
input order; a frame without a document contributes nothing and raises no error; and
when every match names a discovered frame that has a document, there is exactly one
string per input match. -/
theorem collectTextSegments_frame_order (window : Win) (rangeData : List RangeDatum)
    (hwf : ∀ (i : Nat) (w : Win) (nodes : Nodes), (getFrames window)[i]? = some w →
      w.document = some nodes → ∀ d ∈ rangeData, d.framePos = (i : Int) →
        WellFormed nodes d.toDatum) :
    collectTextSegments window rangeData = some (segmentsSpec (getFrames window) rangeData) ∧
    ((∀ d ∈ rangeData, ∃ (i : Nat) (w : Win), (getFrames window)[i]? = some w ∧
        d.framePos = (i : Int) ∧ w.document.isSome = true) →
      ∃ segments, collectTextSegments window rangeData = some segments ∧
        segments.length = rangeData.length) := by
  have hrun : collectTextSegments window rangeData
      = some (segmentsSpec (getFrames window) rangeData) := by
    unfold collectTextSegments
    simp only []
    rw [winsLoop_eq rangeData (getFrames window) 0 []
      (fun k w nodes hk hw d hd hfp => hwf k w nodes hk hw d hd (by simpa using hfp))]
    rw [segmentsSpec_eq]
    simp
  exact ⟨hrun, fun hall => ⟨_, hrun, length_segmentsSpec _ _ hall⟩⟩

/-- C2, on `sampleWindow`: the snippets come out in frame order, the match in the top
window, which has no document, and the match in a missing frame are dropped; and when
every match names a frame with a document there is one snippet per match. -/
theorem collectTextSegments_frame_order_witness :
    collectTextSegments sampleWindow sampleRangeData
      = some ["ab cdef".toList, "ab cdef".toList, "the quick fox".toList] ∧
    ∃ segments, collectTextSegments sampleWindow sampleValidData = some segments ∧
      segments.length = 3 :=
  ⟨(collectTextSegments_frame_order sampleWindow sampleRangeData
      (fun i w nodes hi hdoc d hd hfp =>
        wellFormedFrom_spec sampleRangeData (getFrames sampleWindow) 0 (by decide) i w nodes hi
          hdoc d hd (by simpa using hfp))).1.trans (by decide),
   (collectTextSegments_frame_order sampleWindow sampleValidData
      (fun i w nodes hi hdoc d hd hfp =>
        wellFormedFrom_spec sampleValidData (getFrames sampleWindow) 0 (by decide) i w nodes hi
          hdoc d hd (by simpa using hfp))).2
      (fun d hd =>
        have hall : ∀ d ∈ sampleValidData, hasFrame (getFrames sampleWindow) 0 d = true := by
          decide
        match exists_of_hasFrame d (getFrames sampleWindow) 0 (hall d hd) with
        | ⟨k, w, hk, hfp, hdoc⟩ => ⟨k, w, hk, by simpa using hfp, hdoc⟩)⟩

/-- C3 as stated fails: the sliced text `a`, space, tab, `b` holds one run of two
white-space characters, and the snippet holds two adjacent spaces where the claim
promises a single one. -/
theorem replaceWhiteSpace_keeps_runs :
    slicedText ["a \tb".toList] contextLength ⟨0, 0, 0, 1⟩ = some "a \tb".toList ∧
    collectOne ["a \tb".toList] contextLength ⟨0, 0, 0, 1⟩ = some "a  b".toList ∧
    collapseRuns "a \tb".toList = "a b".toList ∧
    hasAdjacentSpaces "a  b".toList = true ∧
    ¬ (collectOne ["a \tb".toList] contextLength ⟨0, 0, 0, 1⟩
        = (slicedText ["a \tb".toList] contextLength ⟨0, 0, 0, 1⟩).map collapseRuns) := by
  decide

/-- C3, amended: white-space normalisation replaces every white-space character of the
sliced text, position by position, by one space and leaves the other characters as they
are; so the snippet has the length of the sliced text and contains no white-space
character other than a space (a run of k white-space characters becomes k spaces). -/
theorem replaceWhiteSpace_pointwise (nodes : Nodes) (c : Int) (d : Datum) (text : JsString)
    (h : slicedText nodes c d = some text) :
    ∃ snippet, collectOne nodes c d = some snippet ∧
      snippet.length = text.length ∧
      (∀ (k : Nat) (ch : Char), text[k]? = some ch →
        snippet[k]? = some (if isWhiteSpace ch then ' ' else ch)) ∧
      (∀ ch ∈ snippet, isWhiteSpace ch = true → ch = ' ') := by
  refine ⟨replaceWhiteSpace text, by simp [collectOne, h], length_replaceWhiteSpace text, ?_, ?_⟩
  · intro k ch hk
    simp [replaceWhiteSpace, List.getElem?_map, hk]
  · intro ch hch hws
    simp only [replaceWhiteSpace, List.mem_map] at hch
    obtain ⟨a, _, rfl⟩ := hch
    by_cases ha : isWhiteSpace a = true
    · simp [ha]
    · simp only [ha, if_false] at hws ⊢
      exact absurd hws ha

/-- C3, amended, at a sliced text with a tab and a line feed. -/
theorem replaceWhiteSpace_pointwise_witness :
    slicedText ["a\t\nb".toList] contextLength ⟨0, 0, 0, 1⟩ = some "a\t\nb".toList ∧
    ∃ snippet, collectOne ["a\t\nb".toList] contextLength ⟨0, 0, 0, 1⟩ = some snippet ∧
      snippet.length = "a\t\nb".toList.length ∧
      (∀ (k : Nat) (ch : Char), "a\t\nb".toList[k]? = some ch →
        snippet[k]? = some (if isWhiteSpace ch then ' ' else ch)) ∧
      (∀ ch ∈ snippet, isWhiteSpace ch = true → ch = ' ') :=
  ⟨by decide,
   replaceWhiteSpace_pointwise ["a\t\nb".toList] contextLength ⟨0, 0, 0, 1⟩ "a\t\nb".toList
     (by decide)⟩

/-- C4 as stated fails: a match at offsets 5 to 8 of a single node of 40 characters,
with the context length 15 of the code, is clamped at the start of the text only; the
snippet has 23 characters, not `min(40, 2 * 15 + 3) = 33`. -/
theorem snippet_length_clamped_at_start :
    WellFormed [List.replicate 40 'x'] ⟨0, 5, 0, 8⟩ ∧
    (fullText [List.replicate 40 'x']).length = 40 ∧
    (collectOne [List.replicate 40 'x'] contextLength ⟨0, 5, 0, 8⟩).map List.length = some 23 ∧
    (23 : Int) ≠ min 40 (2 * contextLength + (8 - 5)) := by
  decide

/-- C4, amended: for a well-formed match within a single node the snippet has length
`min(T, B + c) - max(0, A - c)`; this is at most `min(T, 2c + (endOffset - startOffset))`
and equals it when the context is clamped at neither end of the text or at both. -/
theorem snippet_length_single_node (nodes : Nodes) (c : Int) (d : Datum) (hc : 0 ≤ c)
    (hwf : WellFormed nodes d) (hsingle : d.startTextNodePos = d.endTextNodePos) :
    ∃ snippet, collectOne nodes c d = some snippet ∧
      (snippet.length : Int) =
        min ((fullText nodes).length : Int) (absPos nodes d.endTextNodePos d.endOffset + c)
          - max 0 (absPos nodes d.startTextNodePos d.startOffset - c) ∧
      (snippet.length : Int) ≤
        min ((fullText nodes).length : Int) (2 * c + (d.endOffset - d.startOffset)) ∧
      ((c ≤ absPos nodes d.startTextNodePos d.startOffset ∧
          absPos nodes d.endTextNodePos d.endOffset + c ≤ ((fullText nodes).length : Int)) ∨
        (absPos nodes d.startTextNodePos d.startOffset ≤ c ∧
          ((fullText nodes).length : Int) ≤ absPos nodes d.endTextNodePos d.endOffset + c) →
        (snippet.length : Int) =
          min ((fullText nodes).length : Int) (2 * c + (d.endOffset - d.startOffset))) := by
  have hlen := length_snippetSpec nodes c d hc hwf
  obtain ⟨hA0, hAB, hBT⟩ := absPos_bounds nodes d hwf
  have hdiff : absPos nodes d.endTextNodePos d.endOffset
      - absPos nodes d.startTextNodePos d.startOffset = d.endOffset - d.startOffset := by
    rw [hsingle]; unfold absPos; ring
  refine ⟨snippetSpec nodes c d, collectOne_eq nodes c d hc hwf, hlen, ?_, ?_⟩
  · rw [hlen]; omega
  · intro h; rw [hlen]; omega

/-- C4, amended, at a match in the middle of a node of 40 characters with context 15:
neither end is clamped and the snippet has `2 * 15 + 3` characters. -/
theorem snippet_length_single_node_witness :
    WellFormed [List.replicate 40 'x'] ⟨0, 18, 0, 21⟩ ∧
    ∃ snippet, collectOne [List.replicate 40 'x'] contextLength ⟨0, 18, 0, 21⟩ = some snippet ∧
      (snippet.length : Int) = 33 :=
  ⟨by decide, by
    obtain ⟨snippet, hrun, _, _, heq⟩ :=
      snippet_length_single_node [List.replicate 40 'x'] contextLength ⟨0, 18, 0, 21⟩
        (by decide) (by decide) rfl
    exact ⟨snippet, hrun, (heq (Or.inl (by decide))).trans (by decide)⟩⟩

theorem getElem?_replaceWhiteSpace (text : JsString) (k : Nat) (ch : Char)
    (h : text[k]? = some ch) :
    (replaceWhiteSpace text)[k]? = some (if isWhiteSpace ch then ' ' else ch) := by
  simp [replaceWhiteSpace, List.getElem?_map, h]

theorem replaceWhiteSpace_eq_self (text : JsString)
    (h : ∀ ch ∈ text, isWhiteSpace ch = true → ch = ' ') : replaceWhiteSpace text = text := by
  unfold replaceWhiteSpace
  conv_rhs => rw [← List.map_id text]
  apply List.map_congr_left
  intro ch hch
  by_cases hws : isWhiteSpace ch = true
  · simp [hws, h ch hch hws]
  · simp [hws]

/-- C5 as stated fails: in the single node `a`, tab, `b`, the match at offsets 1 to 2
with context length 1 is well formed, lies within one node and has enough context on
both sides inside the node; the snippet is `a`, space, `b`, which is not a substring of
the node. -/
theorem snippet_not_substring_of_node :
    WellFormed ["a\tb".toList] ⟨0, 1, 0, 2⟩ ∧
    nodeAt ["a\tb".toList] 0 = some "a\tb".toList ∧
    (1 : Int) ≤ 1 ∧ (1 : Int) ≤ ("a\tb".toList.length : Int) - 2 ∧
    collectOne ["a\tb".toList] 1 ⟨0, 1, 0, 2⟩ = some "a b".toList ∧
    ¬ ("a b".toList <:+: "a\tb".toList) := by
  decide

/-- C5, amended: for a context length `c >= 0` and a well-formed match within a single
node with `startOffset >= c` and `length of the node - endOffset >= c`, no neighbouring
node is consulted: the snippet is that node's own text from `startOffset - c` to
`endOffset + c`, a substring of the node, with every white-space character replaced,
position by position, by a space and every other character kept.  The snippet has at
most `matchLength + 2c` characters, is the same for every node sequence that holds this
node at this position, and is itself a substring of the node when that part of the
node holds no white-space character other than a space. -/
theorem collectOne_within_node (nodes : Nodes) (c : Int) (d : Datum) (node : JsString)
    (hc : 0 ≤ c) (hwf : WellFormed nodes d) (hsingle : d.startTextNodePos = d.endTextNodePos)
    (hnode : nodeAt nodes d.startTextNodePos = some node)
    (hstart : c ≤ d.startOffset) (hend : c ≤ (node.length : Int) - d.endOffset) :
    ∃ snippet, collectOne nodes c d = some snippet ∧
      sliceFromTo node (d.startOffset - c) (d.endOffset + c) <:+: node ∧
      snippet.length = (sliceFromTo node (d.startOffset - c) (d.endOffset + c)).length ∧
      (∀ (k : Nat) (ch : Char),
        (sliceFromTo node (d.startOffset - c) (d.endOffset + c))[k]? = some ch →
        snippet[k]? = some (if isWhiteSpace ch then ' ' else ch)) ∧
      (snippet.length : Int) ≤ (d.endOffset - d.startOffset) + 2 * c ∧
      ((∀ ch ∈ sliceFromTo node (d.startOffset - c) (d.endOffset + c),
          isWhiteSpace ch = true → ch = ' ') → snippet <:+: node) ∧
      (∀ others : Nodes, nodeAt others d.startTextNodePos = some node →
        collectOne others c d = some snippet) := by
  obtain ⟨s, so, e, eo⟩ := d
  simp only at hsingle hnode hstart hend ⊢
  subst hsingle
  obtain ⟨_, _, _, hso0, _, heo0, _, hAB⟩ := hwf
  simp only [absPos] at hso0 heo0 hAB
  have hsoeo : so ≤ eo := by omega
  have hone : ∀ others : Nodes, nodeAt others s = some node →
      collectOne others c ⟨s, so, s, eo⟩
        = some (replaceWhiteSpace (sliceFromTo node (so - c) (eo + c))) := by
    intro others ho
    rw [collectOne, slicedText_single others c s so eo node ho hstart hend,
      jsSlice_eq_sliceFromTo_self node _ _ (by omega) (by omega) (by omega)]
    rfl
  refine ⟨replaceWhiteSpace (sliceFromTo node (so - c) (eo + c)), hone nodes hnode,
    sliceFromTo_substring _ _ _, length_replaceWhiteSpace _, ?_, ?_, ?_, hone⟩
  · intro k ch hk
    exact getElem?_replaceWhiteSpace _ k ch hk
  · rw [length_replaceWhiteSpace, length_sliceFromTo _ _ _ (by omega) (by omega) (by omega)]
    omega
  · intro hplain
    rw [replaceWhiteSpace_eq_self _ hplain]
    exact sliceFromTo_substring _ _ _

/-- C5, amended, at the scenario of the specification (three nodes, a match at offsets
5 to 8 of node 2, context length 4: a snippet of 11 characters that is a substring of
node 2), and at a node holding a tab and a line feed around the match, where the
snippet has spaces in their place. -/
theorem collectOne_within_node_witness :
    (∃ snippet,
      collectOne ["Hello world ".toList, "the quick fox".toList, " jumped today".toList] 4
          ⟨2, 5, 2, 8⟩ = some snippet ∧
      snippet = "jumped toda".toList ∧
      snippet <:+: " jumped today".toList ∧
      (snippet.length : Int) ≤ (8 - 5) + 2 * 4) ∧
    (∃ snippet,
      collectOne ["one\ttwo\nthree".toList] 2 ⟨0, 4, 0, 7⟩ = some snippet ∧
      snippet = "e two t".toList ∧
      snippet[1]? = some ' ' ∧ "one\ttwo\nthree".toList[3]? = some '\t' ∧
      (snippet.length : Int) ≤ (7 - 4) + 2 * 2) := by
  constructor
  · obtain ⟨snippet, hrun, _, _, _, hbound, hsub, _⟩ := collectOne_within_node
      ["Hello world ".toList, "the quick fox".toList, " jumped today".toList] 4 ⟨2, 5, 2, 8⟩
      " jumped today".toList (by decide) (by decide) rfl (by decide) (by decide) (by decide)
    exact ⟨snippet, hrun, Option.some.inj (hrun.symm.trans (by decide)), hsub (by decide),
      hbound⟩
  · obtain ⟨snippet, hrun, _, _, hpoint, hbound, _, _⟩ := collectOne_within_node
      ["one\ttwo\nthree".toList] 2 ⟨0, 4, 0, 7⟩
      "one\ttwo\nthree".toList (by decide) (by decide) rfl (by decide) (by decide) (by decide)
    exact ⟨snippet, hrun, Option.some.inj (hrun.symm.trans (by decide)),
      hpoint 1 '\t' (by decide), by decide, hbound⟩

/-! ## The overlay renderer: claims -/

/-- C6 as stated fails: from an empty tracking list, one rectangle group that wraps
over two rectangles leaves two tracked elements, not one, in either style. -/
theorem setCustomHighlighting_counts_rectangles :
    samplePage.highlighterDivs = [] ∧ wrappedGroup.length = 1 ∧
    (setCustomHighlighting samplePage wrappedGroup (some 0) false).highlighterDivs.length = 2 ∧
    (setCustomHighlighting samplePage wrappedGroup (some 0) true).highlighterDivs.length = 2 := by
  decide

/-- C6, amended: starting from an empty tracking list, `setCustomHighlighting` (outline
or overlay-text style) leaves exactly as many elements in `highlighterDivs` as there
are rectangles in all groups together, which is the number of groups when every group
has one rectangle; and `findbarTweakStyleHighlighting`, when `currentResult` indexes a
group with at least one rectangle, returns normally and leaves exactly 1. -/
theorem tracked_count_after_render (page : Page) (rectData : List RectDatum)
    (currentResult : Option Int) (overlay : Bool) (_hempty : page.highlighterDivs = []) :
    (setCustomHighlighting page rectData currentResult overlay).highlighterDivs.length
      = totalRects rectData ∧
    ((∀ datum ∈ rectData, datum.rectsAndTexts.rectList.length = 1) →
      (setCustomHighlighting page rectData currentResult overlay).highlighterDivs.length
        = rectData.length) ∧
    (∀ (datum : RectDatum) (rect : Rect), rectDataAt rectData currentResult = some datum →
      datum.rectsAndTexts.rectList[0]? = some rect →
      (findbarTweakStyleHighlighting page rectData currentResult).2 = true ∧
      (findbarTweakStyleHighlighting page rectData currentResult).1.highlighterDivs.length = 1) := by
  have hcount : (setCustomHighlighting page rectData currentResult overlay).highlighterDivs.length
      = totalRects rectData := by
    rw [setCustomHighlighting_eq]; simp
  refine ⟨hcount, ?_, ?_⟩
  · intro hone
    rw [hcount]
    clear hcount
    induction rectData with
    | nil => rfl
    | cons a rest ih =>
      have h1 := hone a (List.mem_cons_self _ _)
      have h2 := ih (fun datum hd => hone datum (List.mem_cons_of_mem _ hd))
      simp only [totalRects, List.map_cons, List.sum_cons, List.length_cons] at h2 ⊢
      omega
  · intro datum rect hd hr
    rw [findbarTweak_eq_of_rect page rectData currentResult datum rect hd hr]
    simp

/-- C6, amended, on a page with nothing tracked and two groups of one rectangle. -/
theorem tracked_count_after_render_witness :
    samplePage.highlighterDivs = [] ∧
    (setCustomHighlighting samplePage sampleRectData (some 1) true).highlighterDivs.length = 2 ∧
    (findbarTweakStyleHighlighting samplePage sampleRectData (some 1)).1.highlighterDivs.length
      = 1 :=
  have h := tracked_count_after_render samplePage sampleRectData (some 1) true rfl
  ⟨rfl, h.1.trans (by decide),
   (h.2.2 ⟨⟨[⟨5, 5, 6, 6⟩], ["x".toList]⟩⟩ ⟨5, 5, 6, 6⟩ (by decide) (by decide)).2⟩

/-- C7: in every reachable state, after a render call `highlighterDivs` holds exactly
the elements created by that call, never more than the number of rectangles supplied,
and every element tracked before the call is neither in the body nor tracked; a second
render call in succession leaves no element of the first tracked or in the body; after
`clearCustomHighlighting` the list is empty and every previously tracked element is
detached. -/
theorem render_drains_tracked (page : Page) (hreach : Reachable page) (call : RenderCall) :
    ((render page call).highlighterDivs
        = List.range' page.elements.length
            ((render page call).elements.length - page.elements.length) ∧
      (render page call).highlighterDivs.length ≤ rectsSupplied call ∧
      (∀ div ∈ page.highlighterDivs,
        div ∉ (render page call).body ∧ div ∉ (render page call).highlighterDivs)) ∧
    (∀ next : RenderCall, ∀ div ∈ (render page call).highlighterDivs,
      div ∉ (render (render page call) next).body ∧
      div ∉ (render (render page call) next).highlighterDivs) ∧
    ((clearCustomHighlighting page).highlighterDivs = [] ∧
      ∀ div ∈ page.highlighterDivs, div ∉ (clearCustomHighlighting page).body) := by
  have hstep : ∀ (p : Page), TrackedExist p → ∀ (call : RenderCall),
      (render p call).highlighterDivs
        = List.range' p.elements.length ((render p call).elements.length - p.elements.length) ∧
      (render p call).highlighterDivs.length ≤ rectsSupplied call ∧
      (∀ div ∈ p.highlighterDivs,
        div ∉ (render p call).body ∧ div ∉ (render p call).highlighterDivs) := by
    intro p hp call
    cases call with
    | custom rectData currentResult overlay =>
      simp only [render, rectsSupplied]
      rw [setCustomHighlighting_eq]
      have hlen : (allDivs currentResult overlay rectData).length = totalRects rectData := by
        rw [allDivs, List.enum, length_allDivs]
      refine ⟨by simp [hlen], by simp, ?_⟩
      intro div hdiv
      have := hp div hdiv
      simp only [List.mem_append, List.mem_filter, List.mem_range'_1, decide_eq_true_eq]
      constructor
      · rintro (h | h)
        · exact h.2 hdiv
        · omega
      · intro h; omega
    | findbarTweak rectData currentResult =>
      simp only [render, rectsSupplied]
      cases hd : rectDataAt rectData currentResult with
      | none =>
        have : findbarTweakStyleHighlighting p rectData currentResult
            = (clearCustomHighlighting p, false) := by
          simp [findbarTweakStyleHighlighting, hd]
        rw [this, clearCustomHighlighting_eq]
        refine ⟨by simp, by simp, ?_⟩
        intro div hdiv
        simp [List.mem_filter, hdiv]
      | some datum =>
        cases hr : datum.rectsAndTexts.rectList[0]? with
        | none =>
          have : findbarTweakStyleHighlighting p rectData currentResult
              = (clearCustomHighlighting p, false) := by
            simp [findbarTweakStyleHighlighting, hd, hr]
          rw [this, clearCustomHighlighting_eq]
          refine ⟨by simp, by simp, ?_⟩
          intro div hdiv
          simp [List.mem_filter, hdiv]
        | some rect =>
          rw [findbarTweak_eq_of_rect p rectData currentResult datum rect hd hr]
          have hmem := length_le_totalRects rectData datum (rectDataAt_mem _ _ _ hd)
          have hpos : 0 < datum.rectsAndTexts.rectList.length := by
            cases hl : datum.rectsAndTexts.rectList with
            | nil => rw [hl] at hr; simp at hr
            | cons a l => simp
          refine ⟨by simp, by simp only [List.length_singleton]; omega, ?_⟩
          intro div hdiv
          have := hp div hdiv
          simp only [List.mem_append, List.mem_filter, List.mem_singleton, decide_eq_true_eq]
          constructor
          · rintro (h | h)
            · exact h.2 hdiv
            · omega
          · intro h; omega
  refine ⟨hstep page (trackedExist_of_reachable page hreach) call, ?_, ?_⟩
  · intro next
    exact (hstep (render page call)
      (trackedExist_of_reachable _ (Reachable.render page call hreach)) next).2.2
  · rw [clearCustomHighlighting_eq]
    refine ⟨rfl, ?_⟩
    intro div hdiv
    simp [List.mem_filter, hdiv]

/-- C7, on the state reached from `samplePage` by a first render call. -/
theorem render_drains_tracked_witness :
    Reachable (render samplePage (.custom sampleRectData (some 1) true)) ∧
    (render samplePage (.custom sampleRectData (some 1) true)).highlighterDivs = [2, 3] ∧
    (render (render samplePage (.custom sampleRectData (some 1) true))
        (.custom wrappedGroup none false)).highlighterDivs = [4, 5] ∧
    (∀ div ∈ (render samplePage (.custom sampleRectData (some 1) true)).highlighterDivs,
      div ∉ (render (render samplePage (.custom sampleRectData (some 1) true))
        (.custom wrappedGroup none false)).body) :=
  have hreach : Reachable (render samplePage (.custom sampleRectData (some 1) true)) :=
    Reachable.render _ _ (Reachable.init _ _ (by decide))
  have h := render_drains_tracked _ hreach (.custom wrappedGroup none false)
  ⟨hreach, by decide, h.1.1.trans (by decide), fun div hdiv => (h.1.2.2 div hdiv).1⟩

/-- C8: for every rectangle of every group passed to `setCustomHighlighting`, in the
outline style and in the overlay-text style alike and whether or not the group is the
highlighted one, the element created is absolutely positioned with width
`right - left`, height `bottom - top`, left coordinate `left - 1` and top coordinate
`top - 1`. -/
theorem setCustomHighlighting_boxes (page : Page) (rectData : List RectDatum)
    (currentResult : Option Int) (overlay : Bool) :
    (trackedElements (setCustomHighlighting page rectData currentResult overlay)).map
        (Option.map boxOf)
      = (rectData.flatMap fun datum => datum.rectsAndTexts.rectList).map fun rect =>
          some (some "absolute", some (CssLength.px (rect.right - rect.left)),
            some (CssLength.px (rect.bottom - rect.top)),
            some (CssLength.px (rect.left - 1)), some (CssLength.px (rect.top - 1))) := by
  rw [trackedElements_setCustomHighlighting, List.map_map]
  have h := map_boxOf_allDivs currentResult overlay rectData 0
  have h2 : (Option.map boxOf ∘ some) = (some ∘ boxOf) := by
    funext e; rfl
  rw [h2, ← List.map_map, allDivs, List.enum, h, List.map_map]
  rfl

/-- C9: `setCustomHighlighting` styles the element of rectangle `j` of group `i` as
follows.  Outline style: a 1px solid border, blue iff `i` equals `currentResult` and red
otherwise, no text and no background.  Overlay-text style: text content `textList[j]`,
font size equal to the rectangle height, background `#a7f432` iff `i` equals
`currentResult` and `#fff700` otherwise, no border.  When `currentResult` is null no
group gets the highlighted colours. -/
theorem setCustomHighlighting_styles (page : Page) (rectData : List RectDatum)
    (currentResult : Option Int) (overlay : Bool) :
    trackedElements (setCustomHighlighting page rectData currentResult overlay)
      = (rectData.enum.flatMap fun id =>
          id.2.rectsAndTexts.rectList.enum.map fun jr =>
            if overlay then
              overlayDiv jr.2 (id.2.rectsAndTexts.textList[jr.1]?.getD [])
                (decide (currentResult = some (id.1 : Int)))
            else
              outlineDiv jr.2 (decide (currentResult = some (id.1 : Int)))).map some ∧
    trackedElements (setCustomHighlighting page rectData none overlay)
      = (rectData.enum.flatMap fun id =>
          id.2.rectsAndTexts.rectList.enum.map fun jr =>
            if overlay then overlayDiv jr.2 (id.2.rectsAndTexts.textList[jr.1]?.getD []) false
            else outlineDiv jr.2 false).map some := by
  have hloose : ∀ (i : Nat) (r : Option Int), looseEq i r = decide (r = some (i : Int)) := by
    intro i r
    cases r with
    | none => simp [looseEq]
    | some r => simp only [looseEq, Option.some.injEq]; exact decide_eq_decide.mpr eq_comm
  constructor
  · rw [trackedElements_setCustomHighlighting]
    simp only [allDivs, groupDivs, styledDiv, hloose]
  · rw [trackedElements_setCustomHighlighting]
    simp only [allDivs, groupDivs, styledDiv, hloose]
    simp

/-- C10: `getFrames(top)` is total and returns the top window first, followed by its
frames in depth-first pre-order; a child frame is included iff it has both a document
and a frame element, and a frame lacking either is skipped with its whole subtree. -/
theorem getFrames_preOrder (topWin : Win) :
    getFrames topWin = preOrder topWin ∧ (getFrames topWin).head? = some topWin := by
  have h := getFrames_eq_preOrder topWin
  refine ⟨h, ?_⟩
  rw [h, preOrder_cons]
  rfl

/-! ## Termination and bounds of the context loops -/

theorem backwardLoopTraced_erase (nodes : Nodes) :
    ∀ (fuel : Nat) (pos cso : Int) (text : JsString) (reads : List Int),
      (backwardLoopTraced nodes fuel pos cso text reads).2 = backwardLoop nodes fuel pos cso text := by
  intro fuel
  induction fuel with
  | zero => intro pos cso text reads; rfl
  | succ fuel ih =>
    intro pos cso text reads
    simp only [backwardLoopTraced, backwardLoop]
    split
    · split
      · rfl
      · cases nodeAt nodes (pos - 1) with
        | none => rfl
        | some prevText => exact ih _ _ _ _
    · rfl

theorem forwardLoopTraced_erase (nodes : Nodes) :
    ∀ (fuel : Nat) (pos ceo : Int) (text : JsString) (reads : List Int),
      (forwardLoopTraced nodes fuel pos ceo text reads).2 = forwardLoop nodes fuel pos ceo text := by
  intro fuel
  induction fuel with
  | zero => intro pos ceo text reads; rfl
  | succ fuel ih =>
    intro pos ceo text reads
    simp only [forwardLoopTraced, forwardLoop]
    split
    · split
      · rfl
      · cases nodeAt nodes (pos + 1) with
        | none => rfl
        | some nextText => exact ih _ _ _ _
    · rfl

theorem range_succ_map_shift (n : Nat) (f : Nat → Int) :
    (List.range (n + 1)).map f = f 0 :: (List.range n).map (fun j => f (j + 1)) := by
  rw [List.range_succ_eq_map, List.map_cons, List.map_map]
  rfl

/-- The backward walk from node `k`: it reads the nodes `k - 1`, `k - 2`, ... in turn,
`n` of them, and ends either with a non-negative offset at position `k - n` or, all
nodes read, by the `break` at position `-1`; every bound on the condition evaluations
above `k` gives this same run. -/
theorem backwardLoopTraced_spec (nodes : Nodes) :
    ∀ (k : Nat) (cso : Int) (text : JsString) (reads : List Int), k ≤ nodes.length →
      ∃ (n : Nat) (p cso' : Int) (text' : JsString), n ≤ k ∧
        ((p = (k : Int) - n ∧ 0 ≤ cso') ∨ (p = -1 ∧ n = k ∧ cso' < 0)) ∧
        ∀ fuel, k < fuel →
          backwardLoopTraced nodes fuel (k : Int) cso text reads =
            (reads ++ (List.range n).map (fun (j : Nat) => (k : Int) - 1 - (j : Int)),
              some (p, cso', text')) := by
  intro k
  induction k with
  | zero =>
    intro cso text reads _
    by_cases hc : cso < 0
    · refine ⟨0, -1, cso, text, le_rfl, Or.inr ⟨rfl, rfl, hc⟩, ?_⟩
      intro fuel hf
      obtain ⟨f, rfl⟩ : ∃ f, fuel = f + 1 := ⟨fuel - 1, by omega⟩
      simp [backwardLoopTraced, hc]
    · refine ⟨0, 0, cso, text, le_rfl, Or.inl ⟨by simp, by omega⟩, ?_⟩
      intro fuel hf
      obtain ⟨f, rfl⟩ : ∃ f, fuel = f + 1 := ⟨fuel - 1, by omega⟩
      simp [backwardLoopTraced, hc]
  | succ k ih =>
    intro cso text reads hk
    by_cases hc : cso < 0
    · have hk' : k < nodes.length := by omega
      obtain ⟨n, p, cso', text', hn, hp, hrun⟩ :=
        ih (cso + ((nodes.getD k []).length : Int)) (nodes.getD k [] ++ text)
          (reads ++ [(k : Int)]) (by omega)
      refine ⟨n + 1, p, cso', text', by omega, ?_, ?_⟩
      · rcases hp with ⟨h1, h2⟩ | ⟨h1, h2, h3⟩
        · left; exact ⟨by rw [h1]; push_cast; ring, h2⟩
        · right; exact ⟨h1, by omega, h3⟩
      · intro fuel hf
        obtain ⟨f, rfl⟩ : ∃ f, fuel = f + 1 := ⟨fuel - 1, by omega⟩
        have hcast : (((k + 1 : Nat) : Int) - 1) = (k : Int) := by push_cast; ring
        have hnn : ¬ ((k : Int) < 0) := by omega
        simp only [backwardLoopTraced, hc, if_true, hcast, hnn, if_false, nodeAt_of_lt nodes k hk']
        rw [hrun f (by omega), range_succ_map_shift]
        simp only [List.append_assoc, List.singleton_append, Nat.cast_zero, sub_zero, hcast]
        congr 3
        apply List.map_congr_left
        intro j _
        push_cast
        ring
    · refine ⟨0, ((k + 1 : Nat) : Int), cso, text, by omega, Or.inl ⟨by simp, by omega⟩, ?_⟩
      intro fuel hf
      obtain ⟨f, rfl⟩ : ∃ f, fuel = f + 1 := ⟨fuel - 1, by omega⟩
      simp [backwardLoopTraced, hc]

/-- The forward walk from node `k`, with `m` nodes after it: it reads the nodes `k + 1`,
`k + 2`, ... in turn, `n` of them, and ends either with a non-negative offset at
position `k + n` or, all nodes read, by the `break` at position `nodes.length`; every
bound on the condition evaluations above `m` gives this same run. -/
theorem forwardLoopTraced_spec (nodes : Nodes) :
    ∀ (m k : Nat) (ceo : Int) (text : JsString) (reads : List Int), k + m + 1 = nodes.length →
      ∃ (n : Nat) (p ceo' : Int) (text' : JsString), n ≤ m ∧
        ((p = (k : Int) + n ∧ 0 ≤ ceo') ∨ (p = (nodes.length : Int) ∧ n = m ∧ ceo' < 0)) ∧
        ∀ fuel, m < fuel →
          forwardLoopTraced nodes fuel (k : Int) ceo text reads =
            (reads ++ (List.range n).map (fun (j : Nat) => (k : Int) + 1 + (j : Int)),
              some (p, ceo', text')) := by
  intro m
  induction m with
  | zero =>
    intro k ceo text reads hk
    by_cases hc : ceo < 0
    · refine ⟨0, (nodes.length : Int), ceo, text, le_rfl, Or.inr ⟨rfl, rfl, hc⟩, ?_⟩
      intro fuel hf
      obtain ⟨f, rfl⟩ : ∃ f, fuel = f + 1 := ⟨fuel - 1, by omega⟩
      have hlast : ((k : Int) + 1 = (nodes.length : Int)) := by omega
      simp [forwardLoopTraced, hc, hlast]
    · refine ⟨0, (k : Int), ceo, text, le_rfl, Or.inl ⟨by simp, by omega⟩, ?_⟩
      intro fuel hf
      obtain ⟨f, rfl⟩ : ∃ f, fuel = f + 1 := ⟨fuel - 1, by omega⟩
      simp [forwardLoopTraced, hc]
  | succ m ih =>
    intro k ceo text reads hk
    by_cases hc : ceo < 0
    · have hk' : k + 1 < nodes.length := by omega
      obtain ⟨n, p, ceo', text', hn, hp, hrun⟩ :=
        ih (k + 1) (ceo + ((nodes.getD (k + 1) []).length : Int)) (text ++ nodes.getD (k + 1) [])
          (reads ++ [((k + 1 : Nat) : Int)]) (by omega)
      refine ⟨n + 1, p, ceo', text', by omega, ?_, ?_⟩
      · rcases hp with ⟨h1, h2⟩ | ⟨h1, h2, h3⟩
        · left; exact ⟨by rw [h1]; push_cast; ring, h2⟩
        · right; exact ⟨h1, by omega, h3⟩
      · intro fuel hf
        obtain ⟨f, rfl⟩ : ∃ f, fuel = f + 1 := ⟨fuel - 1, by omega⟩
        have hne : ¬ ((k : Int) + 1 = (nodes.length : Int)) := by omega
        have hcast : ((k : Int) + 1) = ((k + 1 : Nat) : Int) := by push_cast; rfl
        simp only [forwardLoopTraced, hc, if_true, hne, if_false]
        rw [hcast, nodeAt_of_lt nodes (k + 1) hk']
        simp only []
        rw [hrun f (by omega), range_succ_map_shift]
        simp only [List.append_assoc, List.singleton_append, Nat.cast_zero, add_zero, ← hcast]
        congr 3
        apply List.map_congr_left
        intro j _
        push_cast
        ring
    · refine ⟨0, (k : Int), ceo, text, by omega, Or.inl ⟨by simp, by omega⟩, ?_⟩
      intro fuel hf
      obtain ⟨f, rfl⟩ : ∃ f, fuel = f + 1 := ⟨fuel - 1, by omega⟩
      simp [forwardLoopTraced, hc]

/-- With node positions in range, the computation of one match up to `text.slice`
returns a text, whatever the offsets and the context length. -/
theorem slicedText_isSome (nodes : Nodes) (c : Int) (s e : Nat) (so eo : Int)
    (hse : s ≤ e) (he : e < nodes.length) :
    ∃ text, slicedText nodes c ⟨(s : Int), so, (e : Int), eo⟩ = some text := by
  have hcat := concatLoop_eq nodes (e + 1 - s) s [] (by omega)
  have hn : ((e : Int) + 1 - (s : Int)).toNat = e + 1 - s := by omega
  obtain ⟨Y0, Y, p, _, hback, _⟩ :=
    backwardLoop_spec nodes (nodes.length + 1) s (so - c)
      ([] ++ ((nodes.drop s).take (e + 1 - s)).flatten) (by omega) (by omega)
  obtain ⟨Z, Z0, q, _, hfwd, _⟩ :=
    forwardLoop_spec nodes (nodes.length + 1) e (((nodes.getD e []).length : Int) - eo - c)
      (Y ++ ([] ++ ((nodes.drop s).take (e + 1 - s)).flatten)) he (by omega)
  simp only [slicedText, hn, hcat, nodeAt_of_lt nodes e he, hback, hfwd]
  exact ⟨_, rfl⟩

/-- C11: for every node sequence and every match descriptor with
`0 <= startTextNodePos <= endTextNodePos < nodes.length`, whatever the offsets, the
context length and the node texts (empty ones included), the computation of the match
returns a text, and both context loops terminate: every bound of at least
`nodes.length + 1` condition evaluations gives the same finished run.  The backward
loop reads exactly the nodes `startTextNodePos - 1`, `startTextNodePos - 2`, ..., all
at indices in `0 .. nodes.length - 1`, and ends at a non-negative offset or, once node 0
has been read, by the `break` at index `-1` without a further read; the forward loop
reads exactly the nodes `endTextNodePos + 1`, `endTextNodePos + 2`, ..., all in range,
and ends at a non-negative offset or, once the last node has been read, by the `break`
at index `nodes.length` without a further read. -/
theorem context_loops_in_bounds (nodes : Nodes) (c : Int) (d : Datum)
    (hs : 0 ≤ d.startTextNodePos) (hse : d.startTextNodePos ≤ d.endTextNodePos)
    (he : d.endTextNodePos < (nodes.length : Int)) :
    (∃ text, slicedText nodes c d = some text) ∧
    (∀ (cso : Int) (text : JsString),
      ∃ (reads : List Int) (p cso' : Int) (text' : JsString),
        (∀ fuel, nodes.length + 1 ≤ fuel →
          backwardLoopTraced nodes fuel d.startTextNodePos cso text []
            = (reads, some (p, cso', text')) ∧
          backwardLoop nodes fuel d.startTextNodePos cso text = some (p, cso', text')) ∧
        (∀ i ∈ reads, 0 ≤ i ∧ i < (nodes.length : Int)) ∧
        reads = (List.range reads.length).map
          (fun (j : Nat) => d.startTextNodePos - 1 - (j : Int)) ∧
        ((p = d.startTextNodePos - (reads.length : Int) ∧ 0 ≤ cso') ∨
          (p = -1 ∧ (reads.length : Int) = d.startTextNodePos ∧ cso' < 0))) ∧
    (∀ (ceo : Int) (text : JsString),
      ∃ (reads : List Int) (p ceo' : Int) (text' : JsString),
        (∀ fuel, nodes.length + 1 ≤ fuel →
          forwardLoopTraced nodes fuel d.endTextNodePos ceo text []
            = (reads, some (p, ceo', text')) ∧
          forwardLoop nodes fuel d.endTextNodePos ceo text = some (p, ceo', text')) ∧
        (∀ i ∈ reads, 0 ≤ i ∧ i < (nodes.length : Int)) ∧
        reads = (List.range reads.length).map
          (fun (j : Nat) => d.endTextNodePos + 1 + (j : Int)) ∧
        ((p = d.endTextNodePos + (reads.length : Int) ∧ 0 ≤ ceo') ∨
          (p = (nodes.length : Int) ∧
            d.endTextNodePos + 1 + (reads.length : Int) = (nodes.length : Int) ∧ ceo' < 0))) := by
  obtain ⟨s', so, e', eo⟩ := d
  simp only at hs hse he ⊢
  obtain ⟨s, rfl⟩ := Int.eq_ofNat_of_zero_le hs
  obtain ⟨e, rfl⟩ := Int.eq_ofNat_of_zero_le (le_trans hs hse)
  have hse' : s ≤ e := by exact_mod_cast hse
  have he' : e < nodes.length := by exact_mod_cast he
  refine ⟨slicedText_isSome nodes c s e so eo hse' he', ?_, ?_⟩
  · intro cso text
    obtain ⟨n, p, cso', text', hn, hp, hrun⟩ :=
      backwardLoopTraced_spec nodes s cso text [] (by omega)
    refine ⟨(List.range n).map (fun (j : Nat) => (s : Int) - 1 - (j : Int)), p, cso', text',
      ?_, ?_, ?_, ?_⟩
    · intro fuel hf
      have h := hrun fuel (by omega)
      rw [List.nil_append] at h
      refine ⟨h, ?_⟩
      rw [← backwardLoopTraced_erase nodes fuel (s : Int) cso text [], h]
    · intro i hi
      obtain ⟨j, hj, rfl⟩ := List.mem_map.mp hi
      have := List.mem_range.mp hj
      omega
    · simp
    · simp only [List.length_map, List.length_range]
      rcases hp with ⟨h1, h2⟩ | ⟨h1, h2, h3⟩
      · exact Or.inl ⟨h1, h2⟩
      · exact Or.inr ⟨h1, by omega, h3⟩
  · intro ceo text
    obtain ⟨n, p, ceo', text', hn, hp, hrun⟩ :=
      forwardLoopTraced_spec nodes (nodes.length - 1 - e) e ceo text [] (by omega)
    refine ⟨(List.range n).map (fun (j : Nat) => (e : Int) + 1 + (j : Int)), p, ceo', text',
      ?_, ?_, ?_, ?_⟩
    · intro fuel hf
      have h := hrun fuel (by omega)
      rw [List.nil_append] at h
      refine ⟨h, ?_⟩
      rw [← forwardLoopTraced_erase nodes fuel (e : Int) ceo text [], h]
    · intro i hi
      obtain ⟨j, hj, rfl⟩ := List.mem_map.mp hi
      have := List.mem_range.mp hj
      omega
    · simp
    · simp only [List.length_map, List.length_range]
      rcases hp with ⟨h1, h2⟩ | ⟨h1, h2, h3⟩
      · exact Or.inl ⟨h1, h2⟩
      · exact Or.inr ⟨h1, by omega, h3⟩

/-- C11, at a match node whose neighbours are all empty: with the context length of the
code both loops walk over the empty nodes to the end of the sequence and stop there;
the backward loop reads nodes 1 and 0 and breaks at `-1`, the forward loop reads
nodes 3 and 4 and breaks at `5`. -/
theorem context_loops_in_bounds_witness :
    ((0 : Int) ≤ 2 ∧ (2 : Int) ≤ 2 ∧ (2 : Int) < (emptyNeighbours.length : Int)) ∧
    (∃ text, slicedText emptyNeighbours contextLength ⟨2, 0, 2, 2⟩ = some text) ∧
    slicedText emptyNeighbours contextLength ⟨2, 0, 2, 2⟩ = some "ab".toList ∧
    backwardLoopTraced emptyNeighbours (emptyNeighbours.length + 1) 2 (0 - contextLength)
        "ab".toList [] = ([1, 0], some (-1, -15, "ab".toList)) ∧
    forwardLoopTraced emptyNeighbours (emptyNeighbours.length + 1) 2 ((2 - 2) - contextLength)
        "ab".toList [] = ([3, 4], some (5, -15, "ab".toList)) :=
  ⟨by decide,
   (context_loops_in_bounds emptyNeighbours contextLength ⟨2, 0, 2, 2⟩
      (by decide) (by decide) (by decide)).1,
   by decide, by decide, by decide⟩

end FindDemo
